import Mathlib

/-!
Verification of the deployment dependency resolver and ordering engine of
sc-deployer (`deployer/scripts/deploy.py`).

The catalog data model, Kahn's topological sort (`topological_sort`), the
reverse-dependency cascade (`get_affected_products`), content hashing
(`compute_product_hash`), parameter resolution (`resolve_parameters`), the
deploy candidate computation of `cmd_deploy`, and the publish / deploy /
terminate state transitions are embedded as executable Lean definitions,
and the testable properties of the specification are proved or refuted
against them.

Conventions of the embedding:
* Python `dict`s keyed by product name become association lists or total
  functions with a default value, matching `dict.get(k, default)`.
* Python sets that are only iterated and membership-tested become `List`s
  with a `Nodup` hypothesis.
* `while` loops become fuel-indexed recursion; the fuel supplied at the
  call site is proved sufficient, so a fuel exit coincides with loop exit.
* Exceptions become `Except` results.
-/

/-- Per-product catalog configuration (the fields of one `products:` entry
of the catalog that the deploy logic reads): the declared dependency list
and the `parameter_mapping` of `param -> "dep.output"` strings. -/
structure ProductConfig where
  dependencies : List String := []
  parameter_mapping : List (String × String) := []
  deriving Repr, DecidableEq

/-- The catalog: `ctx.catalog["products"]`, an insertion-ordered mapping
from product name to its configuration. -/
structure Catalog where
  products : List (String × ProductConfig)
  deriving Repr, DecidableEq

def Catalog.names (cat : Catalog) : List String :=
  cat.products.map (fun q => q.1)

def Catalog.config (cat : Catalog) (name : String) : ProductConfig :=
  ((cat.products.find? (fun q => q.1 == name)).map (fun q => q.2)).getD ⟨[], []⟩

/-- `ctx.catalog["products"][name].get("dependencies", [])`. -/
def Catalog.deps (cat : Catalog) (name : String) : List String :=
  (cat.config name).dependencies

/-- Catalog well-formedness from the data model: product names are unique
keys and each dependency list is an ordered set (no duplicates). -/
def Catalog.Wellformed (cat : Catalog) : Prop :=
  cat.names.Nodup ∧ ∀ e ∈ cat.products, e.2.dependencies.Nodup

/-- Inner loop of Kahn's algorithm in `topological_sort`: after popping
`product`, iterate over the requested subset decrementing the in-degree of
every product that depends on `product` and enqueueing those that reach
zero (`deploy.py` lines 378-382). -/
def kahnDecrement (deps : String → List String) (product : String) :
    List String → (String → Nat) → List String → (String → Nat) × List String
  | [], ind, queue => (ind, queue)
  | name :: rest, ind, queue =>
    if product ∈ deps name then
      let d := ind name - 1
      kahnDecrement deps product rest (Function.update ind name d)
        (if d = 0 then queue ++ [name] else queue)
    else
      kahnDecrement deps product rest ind queue

/-- The `while queue:` loop of `topological_sort`, fuel-indexed. Each
iteration pops the queue front, appends it to the order and runs
`kahnDecrement`. -/
def kahnLoop (deps : String → List String) (subset : List String) :
    Nat → (String → Nat) → List String → List String → List String
  | 0, _, _, order => order
  | fuel + 1, ind, queue, order =>
    match queue with
    | [] => order
    | product :: qs =>
      let s := kahnDecrement deps product subset ind qs
      kahnLoop deps subset fuel s.1 s.2 (order ++ [product])

/-- In-degree initialisation of `topological_sort`: the number of declared
dependencies of `name` that lie in the requested subset. -/
def initInDegree (deps : String → List String) (subset : List String) : String → Nat :=
  fun name => ((deps name).filter (fun d => decide (d ∈ subset))).length

/-- `topological_sort(ctx, products)` (`deploy.py` lines 363-387): Kahn's
algorithm restricted to `subset`; raises `ValueError("Circular dependency
detected!")` when the produced order does not exhaust the subset. The fuel
`subset.length` is an upper bound on the number of loop iterations, proved
never to be exhausted while the queue is non-empty. -/
def topological_sort (cat : Catalog) (subset : List String) : Except String (List String) :=
  let ind0 := initInDegree cat.deps subset
  let q0 := subset.filter (fun p => ind0 p == 0)
  let order := kahnLoop cat.deps subset subset.length ind0 q0 []
  if order.length = subset.length then Except.ok order
  else Except.error "Circular dependency detected!"

/-- A dependency cycle inside `subset`: a non-empty edge path from `x`
back to `x` along edges `a -> d` with `d ∈ deps a`, all vertices in
`subset`. -/
def cyclicIn (deps : String → List String) (subset : List String) : Prop :=
  ∃ x l, x ∈ subset ∧ (∀ y ∈ l, y ∈ subset) ∧
    List.Chain (fun a b => b ∈ deps a) x (l ++ [x])

/-- An order respects dependencies when every element's in-subset
dependencies occur strictly before it. -/
def depsRespected (deps : String → List String) (subset : List String)
    (order : List String) : Prop :=
  ∀ p1 a p2, order = p1 ++ a :: p2 → ∀ d ∈ deps a, d ∈ subset → d ∈ p1

/-- Three-product example catalog from the specification:
`networking <- database <- api`. -/
def exampleCatalog : Catalog :=
  ⟨[("networking", ⟨[], []⟩),
    ("database", ⟨["networking"], [("VpcId", "networking.VpcId")]⟩),
    ("api", ⟨["database"], []⟩)]⟩

example : topological_sort exampleCatalog ["api", "database", "networking"] =
    Except.ok ["networking", "database", "api"] := rfl

example : topological_sort ⟨[("a", ⟨["b"], []⟩), ("b", ⟨["a"], []⟩)]⟩ ["a", "b"] =
    Except.error "Circular dependency detected!" := rfl

/-! ### Characterisation of the Kahn decrement loop -/

theorem kahnDecrement_fst (deps : String → List String) (product : String) :
    ∀ (s : List String) (ind : String → Nat) (queue : List String), s.Nodup →
      ∀ m, (kahnDecrement deps product s ind queue).1 m =
        if m ∈ s ∧ product ∈ deps m then ind m - 1 else ind m := by
  intro s
  induction s with
  | nil =>
    intro ind queue _ m
    simp [kahnDecrement]
  | cons name rest ih =>
    intro ind queue hnd m
    have hnm : name ∉ rest := (List.nodup_cons.mp hnd).1
    have hrest : rest.Nodup := (List.nodup_cons.mp hnd).2
    by_cases hp : product ∈ deps name
    · rw [kahnDecrement, if_pos hp]
      rw [ih _ _ hrest m]
      rcases eq_or_ne m name with hm | hm
      · subst hm
        rw [if_neg (fun hc => hnm hc.1), Function.update_same,
          if_pos ⟨List.mem_cons_self m rest, hp⟩]
      · rw [Function.update_noteq hm]
        by_cases hmr : m ∈ rest ∧ product ∈ deps m
        · rw [if_pos hmr, if_pos ⟨List.mem_cons_of_mem _ hmr.1, hmr.2⟩]
        · rw [if_neg hmr, if_neg]
          intro hc
          rcases List.mem_cons.mp hc.1 with h | h
          · exact hm h
          · exact hmr ⟨h, hc.2⟩
    · rw [kahnDecrement, if_neg hp]
      rw [ih _ _ hrest m]
      rcases eq_or_ne m name with hm | hm
      · subst hm
        rw [if_neg (fun hc => hnm hc.1), if_neg (fun hc => hp hc.2)]
      · by_cases hmr : m ∈ rest ∧ product ∈ deps m
        · rw [if_pos hmr, if_pos ⟨List.mem_cons_of_mem _ hmr.1, hmr.2⟩]
        · rw [if_neg hmr, if_neg]
          intro hc
          rcases List.mem_cons.mp hc.1 with h | h
          · exact hm h
          · exact hmr ⟨h, hc.2⟩

theorem kahnDecrement_snd (deps : String → List String) (product : String) :
    ∀ (s : List String) (ind : String → Nat) (queue : List String), s.Nodup →
      (kahnDecrement deps product s ind queue).2 =
        queue ++ s.filter (fun m => decide (product ∈ deps m ∧ ind m - 1 = 0)) := by
  intro s
  induction s with
  | nil =>
    intro ind queue _
    simp [kahnDecrement]
  | cons name rest ih =>
    intro ind queue hnd
    have hnm : name ∉ rest := (List.nodup_cons.mp hnd).1
    have hrest : rest.Nodup := (List.nodup_cons.mp hnd).2
    by_cases hp : product ∈ deps name
    · rw [kahnDecrement, if_pos hp]
      rw [ih _ _ hrest]
      have hfc : rest.filter
            (fun m => decide (product ∈ deps m ∧
              Function.update ind name (ind name - 1) m - 1 = 0)) =
          rest.filter (fun m => decide (product ∈ deps m ∧ ind m - 1 = 0)) := by
        apply List.filter_congr
        intro m hm
        rw [Function.update_noteq (by rintro rfl; exact hnm hm)]
      rw [hfc]
      by_cases hd : ind name - 1 = 0
      · rw [if_pos hd, List.filter_cons_of_pos (by simp [hp, hd]), List.append_assoc]
        rfl
      · rw [if_neg hd, List.filter_cons_of_neg (by simp [hp, hd])]
    · rw [kahnDecrement, if_neg hp]
      rw [ih _ _ hrest, List.filter_cons_of_neg (by simp [hp])]

/-! ### List helper lemmas -/

theorem filter_length_and_ne {l : List String} (hl : l.Nodup) (p : String → Prop)
    [DecidablePred p] (x : String) :
    (l.filter (fun d => decide (p d))).length =
      (l.filter (fun d => decide (p d ∧ d ≠ x))).length +
        (if x ∈ l ∧ p x then 1 else 0) := by
  induction l with
  | nil => simp
  | cons a t ih =>
    have hat : a ∉ t := (List.nodup_cons.mp hl).1
    have ht : t.Nodup := (List.nodup_cons.mp hl).2
    rcases eq_or_ne a x with hax | hax
    · subst hax
      by_cases hpa : p a
      · rw [List.filter_cons_of_pos (by simp [hpa]),
          List.filter_cons_of_neg (by simp),
          if_pos ⟨List.mem_cons_self a t, hpa⟩]
        have := ih ht
        rw [if_neg (fun hc => hat hc.1)] at this
        simp only [List.length_cons]
        omega
      · rw [List.filter_cons_of_neg (by simp [hpa]),
          List.filter_cons_of_neg (by simp [hpa]),
          if_neg (fun hc => hpa hc.2)]
        have := ih ht
        rw [if_neg (fun hc => hat hc.1)] at this
        exact this
    · have hmem : (x ∈ a :: t ∧ p x) ↔ (x ∈ t ∧ p x) := by
        constructor
        · rintro ⟨hx, hpx⟩
          rcases List.mem_cons.mp hx with h | h
          · exact absurd h.symm hax
          · exact ⟨h, hpx⟩
        · rintro ⟨hx, hpx⟩
          exact ⟨List.mem_cons_of_mem _ hx, hpx⟩
      by_cases hpa : p a
      · rw [List.filter_cons_of_pos (by simp [hpa]),
          List.filter_cons_of_pos (by simp [hpa, hax])]
        simp only [List.length_cons, ih ht]
        rw [if_congr hmem rfl rfl]
        omega
      · rw [List.filter_cons_of_neg (by simp [hpa]),
          List.filter_cons_of_neg (by simp [hpa]), ih ht,
          if_congr hmem rfl rfl]

theorem append_singleton_eq_split {α : Type} {l p1 p2 : List α} {x a : α}
    (h : l ++ [x] = p1 ++ a :: p2) :
    (p1 = l ∧ a = x ∧ p2 = []) ∨ ∃ p2', p2 = p2' ++ [x] ∧ l = p1 ++ a :: p2' := by
  rcases List.eq_nil_or_concat p2 with h2 | ⟨L, b, h2⟩
  · subst h2
    have := List.append_inj' h (by simp)
    exact Or.inl ⟨this.1.symm, ((List.cons.injEq _ _ _ _).mp this.2).1.symm, rfl⟩
  · subst h2
    have hre : l ++ [x] = (p1 ++ a :: L) ++ [b] := by simp [h]
    have := List.append_inj' hre (by simp)
    have hxb : x = b := ((List.cons.injEq _ _ _ _).mp this.2).1
    exact Or.inr ⟨L, by simp [hxb], this.1⟩

/-! ### The Kahn loop invariant -/

/-- Invariant of the `while queue:` loop of `topological_sort` at loop
entry: `order` holds the nodup already-emitted products, `queue` the nodup
zero-in-degree not-yet-emitted products, and `ind` counts, for every
product of the subset, its in-subset dependencies not yet emitted. -/
structure KahnInv (deps : String → List String) (subset : List String)
    (ind : String → Nat) (queue : List String) (order : List String) : Prop where
  order_nodup : order.Nodup
  order_sub : ∀ x ∈ order, x ∈ subset
  queue_nodup : queue.Nodup
  queue_sub : ∀ x ∈ queue, x ∈ subset
  queue_disj : ∀ x ∈ queue, x ∉ order
  ind_eq : ∀ name ∈ subset,
    ind name = ((deps name).filter (fun d => decide (d ∈ subset ∧ d ∉ order))).length
  zero_mem : ∀ name ∈ subset, ind name = 0 → name ∈ order ∨ name ∈ queue
  order_resp : depsRespected deps subset order
  queue_zero : ∀ x ∈ queue, ind x = 0

theorem kahnInv_step (deps : String → List String) (subset : List String)
    (hns : subset.Nodup) (hdeps : ∀ n ∈ subset, (deps n).Nodup)
    (ind : String → Nat) (product : String) (qs order : List String)
    (hinv : KahnInv deps subset ind (product :: qs) order) :
    KahnInv deps subset (kahnDecrement deps product subset ind qs).1
      (kahnDecrement deps product subset ind qs).2 (order ++ [product]) := by
  have hps : product ∈ subset := hinv.queue_sub product (List.mem_cons_self _ _)
  have hpo : product ∉ order := hinv.queue_disj product (List.mem_cons_self _ _)
  have hpq : product ∉ qs := (List.nodup_cons.mp hinv.queue_nodup).1
  have hqs_nodup : qs.Nodup := (List.nodup_cons.mp hinv.queue_nodup).2
  have hindpos : ∀ m ∈ subset, product ∈ deps m → 1 ≤ ind m := by
    intro m hm hpm
    rw [hinv.ind_eq m hm]
    have : product ∈ (deps m).filter (fun d => decide (d ∈ subset ∧ d ∉ order)) :=
      List.mem_filter.mpr ⟨hpm, by simp [hps, hpo]⟩
    exact List.length_pos.mpr (List.ne_nil_of_mem this)
  have hfst : ∀ m, (kahnDecrement deps product subset ind qs).1 m =
      if m ∈ subset ∧ product ∈ deps m then ind m - 1 else ind m :=
    kahnDecrement_fst deps product subset ind qs hns
  have hsnd : (kahnDecrement deps product subset ind qs).2 =
      qs ++ subset.filter (fun m => decide (product ∈ deps m ∧ ind m - 1 = 0)) :=
    kahnDecrement_snd deps product subset ind qs hns
  set newly := subset.filter (fun m => decide (product ∈ deps m ∧ ind m - 1 = 0)) with hnewly
  have hnew_spec : ∀ m ∈ newly, m ∈ subset ∧ product ∈ deps m ∧ ind m = 1 := by
    intro m hm
    have h1 := List.mem_filter.mp hm
    have h2 : product ∈ deps m ∧ ind m - 1 = 0 := by simpa using h1.2
    have := hindpos m h1.1 h2.1
    exact ⟨h1.1, h2.1, by omega⟩
  have hnew_no_order : ∀ m ∈ newly, m ∉ order := by
    intro m hm hmo
    obtain ⟨s, t, hst⟩ := List.append_of_mem hmo
    have := hinv.order_resp s m t hst product (hnew_spec m hm).2.1 hps
    exact hpo (hst ▸ List.mem_append_left _ this)
  have hnew_ne_product : ∀ m ∈ newly, m ≠ product := by
    intro m hm hc
    have h1 := (hnew_spec m hm).2.2
    have h0 := hinv.queue_zero product (List.mem_cons_self _ _)
    rw [hc] at h1
    omega
  have hnew_no_qs : ∀ m ∈ newly, m ∉ qs := by
    intro m hm hc
    have h1 := (hnew_spec m hm).2.2
    have h0 := hinv.queue_zero m (List.mem_cons_of_mem _ hc)
    omega
  refine
    { order_nodup := ?_, order_sub := ?_, queue_nodup := ?_, queue_sub := ?_,
      queue_disj := ?_, ind_eq := ?_, zero_mem := ?_, order_resp := ?_,
      queue_zero := ?_ }
  · exact List.Nodup.append hinv.order_nodup (List.nodup_singleton _)
      (fun a ha hb => hpo ((List.mem_singleton.mp hb) ▸ ha))
  · intro x hx
    rcases List.mem_append.mp hx with h | h
    · exact hinv.order_sub x h
    · exact (List.mem_singleton.mp h) ▸ hps
  · rw [hsnd]
    exact List.Nodup.append hqs_nodup (List.Nodup.filter _ hns)
      (fun a ha hb => hnew_no_qs a hb ha)
  · rw [hsnd]
    intro x hx
    rcases List.mem_append.mp hx with h | h
    · exact hinv.queue_sub x (List.mem_cons_of_mem _ h)
    · exact (List.mem_filter.mp h).1
  · rw [hsnd]
    intro x hx hc
    rcases List.mem_append.mp hc with ho | ho
    · rcases List.mem_append.mp hx with h | h
      · exact hinv.queue_disj x (List.mem_cons_of_mem _ h) ho
      · exact hnew_no_order x h ho
    · have hxp : x = product := List.mem_singleton.mp ho
      rcases List.mem_append.mp hx with h | h
      · exact hpq (hxp ▸ h)
      · exact hnew_ne_product x h hxp
  · intro m hm
    rw [hfst m]
    have hfilter : (deps m).filter
          (fun d => decide (d ∈ subset ∧ d ∉ order ++ [product])) =
        (deps m).filter
          (fun d => decide ((d ∈ subset ∧ d ∉ order) ∧ d ≠ product)) := by
      apply List.filter_congr
      intro d _
      apply decide_eq_decide.mpr
      constructor
      · rintro ⟨h1, h2⟩
        exact ⟨⟨h1, fun hc => h2 (List.mem_append_left _ hc)⟩,
          fun hc => h2 (List.mem_append_right _ (hc ▸ List.mem_singleton_self _))⟩
      · rintro ⟨⟨h1, h2⟩, h3⟩
        refine ⟨h1, fun hc => ?_⟩
        rcases List.mem_append.mp hc with h | h
        · exact h2 h
        · exact h3 (List.mem_singleton.mp h)
    rw [hfilter]
    have hlen := filter_length_and_ne (hdeps m hm)
      (fun d => d ∈ subset ∧ d ∉ order) product
    rw [← hinv.ind_eq m hm] at hlen
    by_cases hpm : product ∈ deps m
    · rw [if_pos ⟨hm, hpm⟩]
      rw [if_pos ⟨hpm, hps, hpo⟩] at hlen
      omega
    · rw [if_neg (fun hc => hpm hc.2)]
      rw [if_neg (fun hc => hpm hc.1)] at hlen
      omega
  · intro m hm hz
    rw [hfst m] at hz
    rw [hsnd]
    by_cases hpm : product ∈ deps m
    · rw [if_pos ⟨hm, hpm⟩] at hz
      right
      exact List.mem_append_right _ (List.mem_filter.mpr ⟨hm, by simp [hpm, hz]⟩)
    · rw [if_neg (fun hc => hpm hc.2)] at hz
      rcases hinv.zero_mem m hm hz with h | h
      · exact Or.inl (List.mem_append_left _ h)
      · rcases List.mem_cons.mp h with h | h
        · exact Or.inl (List.mem_append_right _ (h ▸ List.mem_singleton_self _))
        · exact Or.inr (List.mem_append_left _ h)
  · intro p1 a p2 heq d hd hds
    rcases append_singleton_eq_split heq with ⟨h1, h2, _⟩ | ⟨p2', _, h2⟩
    · subst h1
      subst h2
      have h0 := hinv.queue_zero a (List.mem_cons_self _ _)
      have hz := hinv.ind_eq a (hinv.queue_sub a (List.mem_cons_self _ _))
      rw [h0] at hz
      have hnil : (deps a).filter (fun x => decide (x ∈ subset ∧ x ∉ p1)) = [] :=
        List.length_eq_zero.mp hz.symm
      by_contra hdp
      have : d ∈ (deps a).filter (fun x => decide (x ∈ subset ∧ x ∉ p1)) :=
        List.mem_filter.mpr ⟨hd, by simp [hds, hdp]⟩
      rw [hnil] at this
      exact absurd this (List.not_mem_nil d)
    · exact hinv.order_resp p1 a p2' h2 d hd hds
  · rw [hsnd]
    intro x hx
    rw [hfst x]
    rcases List.mem_append.mp hx with h | h
    · have h0 := hinv.queue_zero x (List.mem_cons_of_mem _ h)
      split
      · omega
      · exact h0
    · have := (hnew_spec x h).2.2
      rw [if_pos ⟨(hnew_spec x h).1, (hnew_spec x h).2.1⟩]
      omega

theorem kahnLoop_zero (deps : String → List String) (subset : List String)
    (ind : String → Nat) (queue order : List String) :
    kahnLoop deps subset 0 ind queue order = order := rfl

theorem kahnLoop_succ_nil (deps : String → List String) (subset : List String)
    (fuel : Nat) (ind : String → Nat) (order : List String) :
    kahnLoop deps subset (fuel + 1) ind [] order = order := rfl

theorem kahnLoop_succ_cons (deps : String → List String) (subset : List String)
    (fuel : Nat) (ind : String → Nat) (product : String) (qs order : List String) :
    kahnLoop deps subset (fuel + 1) ind (product :: qs) order =
      kahnLoop deps subset fuel (kahnDecrement deps product subset ind qs).1
        (kahnDecrement deps product subset ind qs).2 (order ++ [product]) := rfl

theorem mem_of_subset_of_length_le {subset order : List String}
    (hs : subset.Nodup) (ho : order.Nodup) (hsub : ∀ x ∈ order, x ∈ subset)
    (hlen : subset.length ≤ order.length) : ∀ v ∈ subset, v ∈ order := by
  intro v hv
  have hfin : order.toFinset = subset.toFinset := by
    apply Finset.eq_of_subset_of_card_le
    · intro x hx
      exact List.mem_toFinset.mpr (hsub x (List.mem_toFinset.mp hx))
    · rw [List.toFinset_card_of_nodup hs, List.toFinset_card_of_nodup ho]
      exact hlen
  exact List.mem_toFinset.mp (hfin ▸ List.mem_toFinset.mpr hv)

/-- Postcondition of the Kahn loop from any state satisfying the
invariant with sufficient fuel: the produced order is nodup, lies in the
subset, respects dependencies, and every subset element left out has an
in-subset dependency that is also left out (a stalled residue). -/
theorem kahnLoop_post (deps : String → List String) (subset : List String)
    (hns : subset.Nodup) (hdeps : ∀ n ∈ subset, (deps n).Nodup) :
    ∀ (fuel : Nat) (ind : String → Nat) (queue order : List String),
      KahnInv deps subset ind queue order →
      subset.length ≤ fuel + order.length →
      (kahnLoop deps subset fuel ind queue order).Nodup ∧
      (∀ x ∈ kahnLoop deps subset fuel ind queue order, x ∈ subset) ∧
      depsRespected deps subset (kahnLoop deps subset fuel ind queue order) ∧
      (∀ v ∈ subset, v ∉ kahnLoop deps subset fuel ind queue order →
        ∃ d ∈ deps v, d ∈ subset ∧ d ∉ kahnLoop deps subset fuel ind queue order) := by
  intro fuel
  induction fuel with
  | zero =>
    intro ind queue order hinv hfuel
    rw [kahnLoop_zero]
    have hcov := mem_of_subset_of_length_le hns hinv.order_nodup hinv.order_sub
      (by omega)
    exact ⟨hinv.order_nodup, hinv.order_sub, hinv.order_resp,
      fun v hv hnv => absurd (hcov v hv) hnv⟩
  | succ fuel ih =>
    intro ind queue order hinv hfuel
    match queue with
    | [] =>
      rw [kahnLoop_succ_nil]
      refine ⟨hinv.order_nodup, hinv.order_sub, hinv.order_resp, ?_⟩
      intro v hv hnv
      by_cases hz : ind v = 0
      · rcases hinv.zero_mem v hv hz with h | h
        · exact absurd h hnv
        · exact absurd h (List.not_mem_nil v)
      · have hlen : ((deps v).filter
            (fun d => decide (d ∈ subset ∧ d ∉ order))).length ≠ 0 := by
          rw [← hinv.ind_eq v hv]; exact hz
        have hne : (deps v).filter (fun d => decide (d ∈ subset ∧ d ∉ order)) ≠ [] :=
          fun hc => hlen (by rw [hc]; rfl)
        obtain ⟨d, hd⟩ := List.exists_mem_of_ne_nil _ hne
        have h1 := List.mem_filter.mp hd
        have h2 : d ∈ subset ∧ d ∉ order := by simpa using h1.2
        exact ⟨d, h1.1, h2.1, h2.2⟩
    | product :: qs =>
      rw [kahnLoop_succ_cons]
      have hstep := kahnInv_step deps subset hns hdeps ind product qs order hinv
      apply ih _ _ _ hstep
      rw [List.length_append, List.length_singleton]
      omega

/-- The invariant holds at entry of the Kahn loop with the initial
in-degree map and queue of `topological_sort`. -/
theorem kahnInv_init (deps : String → List String) (subset : List String)
    (hns : subset.Nodup) :
    KahnInv deps subset (initInDegree deps subset)
      (subset.filter (fun p => initInDegree deps subset p == 0)) [] := by
  refine
    { order_nodup := List.nodup_nil, order_sub := ?_, queue_nodup := ?_,
      queue_sub := ?_, queue_disj := ?_, ind_eq := ?_, zero_mem := ?_,
      order_resp := ?_, queue_zero := ?_ }
  · intro x hx
    exact absurd hx (List.not_mem_nil x)
  · exact List.Nodup.filter _ hns
  · intro x hx
    exact (List.mem_filter.mp hx).1
  · intro x _ hc
    exact (List.not_mem_nil x) hc
  · intro name _
    unfold initInDegree
    congr 1
    apply List.filter_congr
    intro d _
    apply decide_eq_decide.mpr
    simp
  · intro name hn hz
    right
    apply List.mem_filter.mpr
    refine ⟨hn, ?_⟩
    simpa using hz
  · intro p1 a p2 heq
    exact absurd heq.symm (by simp)
  · intro x hx
    have := (List.mem_filter.mp hx).2
    simpa using this

/-! ### Cycles, ranks and the pigeonhole extraction -/

theorem getLast_append_singleton {α : Type} (l : List α) (x : α)
    (h : l ++ [x] ≠ []) : (l ++ [x]).getLast h = x :=
  List.getLast_concat l

theorem chain_rank_getLast_lt (deps : String → List String) (subset : List String)
    (rank : String → Nat)
    (hrank : ∀ a ∈ subset, ∀ d ∈ deps a, d ∈ subset → rank d < rank a) :
    ∀ (l : List String) (y : String), List.Chain (fun a b => b ∈ deps a) y l →
      y ∈ subset → (∀ z ∈ l, z ∈ subset) →
      ∀ h : l ≠ [], rank (l.getLast h) < rank y := by
  intro l
  induction l with
  | nil =>
    intro y _ _ _ h
    exact absurd rfl h
  | cons b l' ih =>
    intro y hchain hy hsub h
    have hedge : b ∈ deps y := (List.chain_cons.mp hchain).1
    have hb : b ∈ subset := hsub b (List.mem_cons_self _ _)
    have hyb : rank b < rank y := hrank y hy b hedge hb
    rcases eq_or_ne l' [] with h' | h'
    · subst h'
      exact hyb
    · rw [List.getLast_cons h']
      have := ih b (List.chain_cons.mp hchain).2 hb
        (fun z hz => hsub z (List.mem_cons_of_mem _ hz)) h'
      omega

/-- A strictly dependency-decreasing rank function on the subset excludes
any cycle inside the subset. -/
theorem not_cyclicIn_of_rank (deps : String → List String) (subset : List String)
    (rank : String → Nat)
    (hrank : ∀ a ∈ subset, ∀ d ∈ deps a, d ∈ subset → rank d < rank a) :
    ¬ cyclicIn deps subset := by
  rintro ⟨x, l, hx, hl, hchain⟩
  have hne : l ++ [x] ≠ [] := by simp
  have := chain_rank_getLast_lt deps subset rank hrank (l ++ [x]) x hchain hx
    (fun z hz => by
      rcases List.mem_append.mp hz with h | h
      · exact hl z h
      · exact (List.mem_singleton.mp h) ▸ hx) hne
  rw [getLast_append_singleton l x hne] at this
  omega

/-- First in-`R` dependency of `v`, used as the successor choice for the
pigeonhole cycle extraction. -/
def succIn (deps : String → List String) (R : List String) (v : String) : String :=
  ((deps v).find? (fun d => decide (d ∈ R))).getD v

/-- The edge path `[g y, g (g y), ...]` of length `k` from `y`. -/
def pathAux (g : String → String) : Nat → String → List String
  | 0, _ => []
  | k + 1, y => g y :: pathAux g k (g y)

theorem succIn_spec (deps : String → List String) (R : List String) (v : String)
    (h : ∃ d ∈ deps v, d ∈ R) : succIn deps R v ∈ deps v ∧ succIn deps R v ∈ R := by
  obtain ⟨d, hd, hdR⟩ := h
  have hsome : ((deps v).find? (fun d => decide (d ∈ R))).isSome :=
    List.find?_isSome.mpr ⟨d, hd, by simp [hdR]⟩
  obtain ⟨w, hw⟩ := Option.isSome_iff_exists.mp hsome
  unfold succIn
  rw [hw, Option.getD_some]
  exact ⟨List.mem_of_find?_eq_some hw, by simpa using List.find?_some hw⟩

theorem iterate_succIn_mem (deps : String → List String) (R : List String)
    (hsucc : ∀ v ∈ R, ∃ d ∈ deps v, d ∈ R) (v : String) (hv : v ∈ R) :
    ∀ k, (succIn deps R)^[k] v ∈ R := by
  intro k
  induction k with
  | zero => simpa
  | succ k ih =>
    rw [Function.iterate_succ_apply']
    exact (succIn_spec deps R _ (hsucc _ ih)).2

theorem pathAux_chain (deps : String → List String) (R : List String)
    (hsucc : ∀ v ∈ R, ∃ d ∈ deps v, d ∈ R) :
    ∀ (k : Nat) (y : String), y ∈ R →
      List.Chain (fun a b => b ∈ deps a) y (pathAux (succIn deps R) k y) := by
  intro k
  induction k with
  | zero =>
    intro y _
    exact List.Chain.nil
  | succ k ih =>
    intro y hy
    rw [pathAux, List.chain_cons]
    exact ⟨(succIn_spec deps R y (hsucc y hy)).1,
      ih _ (succIn_spec deps R y (hsucc y hy)).2⟩

theorem pathAux_mem (deps : String → List String) (R : List String)
    (hsucc : ∀ v ∈ R, ∃ d ∈ deps v, d ∈ R) :
    ∀ (k : Nat) (y : String), y ∈ R →
      ∀ z ∈ pathAux (succIn deps R) k y, z ∈ R := by
  intro k
  induction k with
  | zero =>
    intro y _ z hz
    exact absurd hz (List.not_mem_nil z)
  | succ k ih =>
    intro y hy z hz
    rw [pathAux] at hz
    rcases List.mem_cons.mp hz with h | h
    · exact h ▸ (succIn_spec deps R y (hsucc y hy)).2
    · exact ih _ (succIn_spec deps R y (hsucc y hy)).2 z h

theorem pathAux_concat (g : String → String) :
    ∀ (k : Nat) (y : String), pathAux g (k + 1) y = pathAux g k y ++ [g^[k + 1] y] := by
  intro k
  induction k with
  | zero =>
    intro y
    simp [pathAux]
  | succ k ih =>
    intro y
    rw [pathAux, ih (g y), pathAux]
    rw [Function.iterate_succ_apply g (k + 1) y]
    rfl

/-- If every member of a non-empty `R ⊆ subset` has a dependency inside
`R`, the subset contains a dependency cycle (pigeonhole on the iterated
successor choice). -/
theorem cyclicIn_of_succ (deps : String → List String) (subset R : List String)
    (hRsub : ∀ v ∈ R, v ∈ subset) (hne : R ≠ [])
    (hsucc : ∀ v ∈ R, ∃ d ∈ deps v, d ∈ R) : cyclicIn deps subset := by
  obtain ⟨v0, hv0⟩ := List.exists_mem_of_ne_nil R hne
  have hiter : ∀ k, (succIn deps R)^[k] v0 ∈ R :=
    iterate_succIn_mem deps R hsucc v0 hv0
  have hcard : R.toFinset.card < (Finset.range (R.length + 1)).card := by
    rw [Finset.card_range]
    exact Nat.lt_succ_of_le (List.toFinset_card_le R)
  obtain ⟨i, _, j, _, hij, heq⟩ :=
    Finset.exists_ne_map_eq_of_card_lt_of_maps_to hcard
      (fun k _ => List.mem_toFinset.mpr (hiter k))
  have key : ∀ i j : Nat, i < j →
      (succIn deps R)^[i] v0 = (succIn deps R)^[j] v0 → cyclicIn deps subset := by
    intro i j hlt he
    set g := succIn deps R with hg
    set y := g^[i] v0 with hy
    have hyR : y ∈ R := hiter i
    obtain ⟨m, hm⟩ : ∃ m, j - i = m + 1 := ⟨j - i - 1, by omega⟩
    have hcyc : g^[m + 1] y = y := by
      rw [hy, ← Function.iterate_add_apply g (m + 1) i v0]
      have : m + 1 + i = j := by omega
      rw [this, ← he]
    refine ⟨y, pathAux g m y, hRsub y hyR, ?_, ?_⟩
    · intro z hz
      exact hRsub z (pathAux_mem deps R hsucc m y hyR z hz)
    · have := pathAux_chain deps R hsucc (m + 1) y hyR
      rw [pathAux_concat g m y, hcyc] at this
      exact this
  rcases lt_or_gt_of_ne hij with hlt | hlt
  · exact key i j hlt heq
  · exact key j i hlt heq.symm

/-! ### Correctness and cycle-rejection of `topological_sort` -/

theorem deps_nodup_of_wellformed (cat : Catalog) (h : cat.Wellformed)
    (n : String) : (cat.deps n).Nodup := by
  unfold Catalog.deps Catalog.config
  cases hf : cat.products.find? (fun q => q.1 == n) with
  | none => simp
  | some e =>
    simp only [Option.map_some', Option.getD_some]
    exact h.2 e (List.mem_of_find?_eq_some hf)

theorem indexOf_append_cons_self {a : String} :
    ∀ (s : List String), a ∉ s → ∀ t : List String,
      (s ++ a :: t).indexOf a = s.length := by
  intro s
  induction s with
  | nil =>
    intro _ t
    simp
  | cons b s' ih =>
    intro h t
    have hba : b ≠ a := fun hc => h (hc ▸ List.mem_cons_self b s')
    rw [List.cons_append, List.indexOf_cons]
    simp only [beq_eq_false_iff_ne.mpr hba, cond_false, List.length_cons]
    rw [ih (fun hc => h (List.mem_cons_of_mem _ hc)) t]

/-- Full specification of `topological_sort` on an acyclic subset: it
succeeds with a permutation of the subset respecting dependencies. -/
theorem topological_sort_spec_of_acyclic (cat : Catalog) (subset : List String)
    (hwf : cat.Wellformed)
    (hnd : subset.Nodup) (hacyc : ¬ cyclicIn cat.deps subset) :
    ∃ order, topological_sort cat subset = Except.ok order ∧
      order.Perm subset ∧ depsRespected cat.deps subset order := by
  have hdeps : ∀ n ∈ subset, (cat.deps n).Nodup :=
    fun n _ => deps_nodup_of_wellformed cat hwf n
  set r := kahnLoop cat.deps subset subset.length (initInDegree cat.deps subset)
    (subset.filter (fun p => initInDegree cat.deps subset p == 0)) [] with hr
  have hpost := kahnLoop_post cat.deps subset hnd hdeps subset.length
    (initInDegree cat.deps subset)
    (subset.filter (fun p => initInDegree cat.deps subset p == 0)) []
    (kahnInv_init cat.deps subset hnd) (by simp)
  rw [← hr] at hpost
  obtain ⟨hnodup, hrsub, hresp, hstall⟩ := hpost
  have hcov : ∀ v ∈ subset, v ∈ r := by
    by_contra hc
    push_neg at hc
    obtain ⟨v, hv, hnv⟩ := hc
    apply hacyc
    apply cyclicIn_of_succ cat.deps subset (subset.filter (fun v => decide (v ∉ r)))
    · intro w hw
      exact (List.mem_filter.mp hw).1
    · exact List.ne_nil_of_mem (List.mem_filter.mpr ⟨hv, by simp [hnv]⟩)
    · intro w hw
      have h1 := List.mem_filter.mp hw
      have h2 : w ∉ r := by simpa using h1.2
      obtain ⟨d, hd, hds, hdr⟩ := hstall w h1.1 h2
      exact ⟨d, hd, List.mem_filter.mpr ⟨hds, by simp [hdr]⟩⟩
  have hperm : r.Perm subset := by
    apply List.perm_of_nodup_nodup_toFinset_eq hnodup hnd
    ext x
    simp only [List.mem_toFinset]
    exact ⟨fun h => hrsub x h, fun h => hcov x h⟩
  refine ⟨r, ?_, hperm, hresp⟩
  have htopo : topological_sort cat subset =
      if r.length = subset.length then Except.ok r
      else Except.error "Circular dependency detected!" := rfl
  rw [htopo, if_pos hperm.length_eq]

/-- C2. For every catalog and every requested subset of catalog products
containing a dependency cycle among its members, `topological_sort` raises
the cycle `ValueError` and returns no order. -/
theorem C2_topological_sort_cycle_error (cat : Catalog) (subset : List String)
    (hwf : cat.Wellformed) (hsub : ∀ p ∈ subset, p ∈ cat.names)
    (hnd : subset.Nodup) (hcyc : cyclicIn cat.deps subset) :
    topological_sort cat subset = Except.error "Circular dependency detected!" := by
  have hdeps : ∀ n ∈ subset, (cat.deps n).Nodup :=
    fun n _ => deps_nodup_of_wellformed cat hwf n
  set r := kahnLoop cat.deps subset subset.length (initInDegree cat.deps subset)
    (subset.filter (fun p => initInDegree cat.deps subset p == 0)) [] with hr
  have hpost := kahnLoop_post cat.deps subset hnd hdeps subset.length
    (initInDegree cat.deps subset)
    (subset.filter (fun p => initInDegree cat.deps subset p == 0)) []
    (kahnInv_init cat.deps subset hnd) (by simp)
  rw [← hr] at hpost
  obtain ⟨hnodup, hrsub, hresp, _⟩ := hpost
  have htopo : topological_sort cat subset =
      if r.length = subset.length then Except.ok r
      else Except.error "Circular dependency detected!" := rfl
  rw [htopo]
  rw [if_neg]
  intro hlen
  have hcov : ∀ v ∈ subset, v ∈ r :=
    mem_of_subset_of_length_le hnd hnodup hrsub (by omega)
  apply not_cyclicIn_of_rank cat.deps subset (fun v => r.indexOf v) ?_ hcyc
  intro a ha d hd hds
  show List.indexOf d r < List.indexOf a r
  have har : a ∈ r := hcov a ha
  obtain ⟨s, t, hst⟩ := List.append_of_mem har
  have hnodup' := hst ▸ hnodup
  have has : a ∉ s := by
    have := (List.nodup_append.mp hnodup').2.2
    intro hc
    exact this hc (List.mem_cons_self a t)
  have hbefore : d ∈ s := hresp s a t hst d hd hds
  have hia : r.indexOf a = s.length := by
    rw [hst]
    exact indexOf_append_cons_self s has t
  have hid : r.indexOf d < s.length := by
    rw [hst, List.indexOf_append_of_mem hbefore]
    exact List.indexOf_lt_length.mpr hbefore
  omega

/-- C1. For every catalog and every requested subset of catalog products
whose restricted dependency graph is acyclic, `topological_sort` returns
an order containing each product of the subset exactly once (a permutation
of the subset) in which every product appears after each of its in-subset
dependencies. -/
theorem C1_topological_sort_acyclic_correct (cat : Catalog) (subset : List String)
    (hwf : cat.Wellformed) (hsub : ∀ p ∈ subset, p ∈ cat.names)
    (hnd : subset.Nodup) (hacyc : ¬ cyclicIn cat.deps subset) :
    ∃ order, topological_sort cat subset = Except.ok order ∧
      order.Perm subset ∧ depsRespected cat.deps subset order :=
  topological_sort_spec_of_acyclic cat subset hwf hnd hacyc

def cyclicCatalog : Catalog :=
  ⟨[("a", ⟨["b"], []⟩), ("b", ⟨["a"], []⟩)]⟩

theorem C1_witness :
    ∃ order,
      topological_sort exampleCatalog ["networking", "database", "api"] =
        Except.ok order ∧
      order.Perm ["networking", "database", "api"] ∧
      depsRespected exampleCatalog.deps ["networking", "database", "api"] order :=
  C1_topological_sort_acyclic_correct exampleCatalog
    ["networking", "database", "api"] ⟨by decide, by decide⟩ (by decide) (by decide)
    (not_cyclicIn_of_rank exampleCatalog.deps ["networking", "database", "api"]
      (fun n => if n = "networking" then 0 else if n = "database" then 1 else 2)
      (by decide))

theorem C2_witness :
    topological_sort cyclicCatalog ["a", "b"] =
      Except.error "Circular dependency detected!" :=
  C2_topological_sort_cycle_error cyclicCatalog ["a", "b"] ⟨by decide, by decide⟩
    (by decide) (by decide)
    ⟨"a", ["b"], by decide, by decide,
      List.Chain.cons (by decide) (List.Chain.cons (by decide) List.Chain.nil)⟩

/-! ### The reverse-dependency cascade `get_affected_products` -/

/-- One step of building the reverse-dependency map of
`get_affected_products` (`deploy.py` lines 344-349): for each declared
dependency of `entry` that is a catalog product, append `entry`'s name to
that dependency's dependents list. -/
def addDependents (names : List String) (entry : String × ProductConfig)
    (m : String → List String) : String → List String :=
  entry.2.dependencies.foldl
    (fun m dep =>
      if dep ∈ names then Function.update m dep (m dep ++ [entry.1]) else m) m

/-- The reverse-dependency map `dependents`, with `dependents.get(p, [])`
semantics for products without an entry. -/
def dependentsMap (cat : Catalog) : String → List String :=
  cat.products.foldl (fun m e => addDependents cat.names e m) (fun _ => [])

/-- BFS loop of `get_affected_products` (`deploy.py` lines 352-358),
fuel-indexed: pop a product, and push each of its dependents not yet in
`affected` onto both `affected` and the queue. -/
def bfsLoop (dm : String → List String) : Nat → List String → List String → List String
  | 0, affected, _ => affected
  | fuel + 1, affected, queue =>
    match queue with
    | [] => affected
    | product :: rest =>
      let s := (dm product).foldl
        (fun (st : List String × List String) dependent =>
          if dependent ∈ st.1 then st
          else (st.1 ++ [dependent], st.2 ++ [dependent]))
        (affected, rest)
      bfsLoop dm fuel s.1 s.2

/-- `get_affected_products(ctx, changed)` (`deploy.py` lines 340-360):
the changed set plus the breadth-first cascade over reverse-dependency
edges. The fuel bounds the number of queue pops, which never exceeds
`changed.length + cat.products.length`. -/
def get_affected_products (cat : Catalog) (changed : List String) : List String :=
  bfsLoop (dependentsMap cat) (changed.length + cat.products.length) changed changed

/-- The reverse-dependency ("is a dependent of") edge between catalog
products: `x` depends on `d`, so a change of `d` cascades to `x`. -/
def revDepEdge (cat : Catalog) (d x : String) : Prop :=
  d ∈ cat.names ∧ x ∈ cat.names ∧ d ∈ cat.deps x

example : get_affected_products exampleCatalog ["networking"] =
    ["networking", "database", "api"] := rfl

example : get_affected_products exampleCatalog ["api"] = ["api"] := rfl

theorem foldl_update_mem (names : List String) (nm : String) :
    ∀ (ds : List String) (m : String → List String) (d x : String),
      x ∈ (ds.foldl (fun m dep =>
          if dep ∈ names then Function.update m dep (m dep ++ [nm]) else m) m) d ↔
        x ∈ m d ∨ (d ∈ names ∧ x = nm ∧ d ∈ ds) := by
  intro ds
  induction ds with
  | nil =>
    intro m d x
    simp
  | cons dep rest ih =>
    intro m d x
    rw [List.foldl_cons]
    by_cases hdn : dep ∈ names
    · rw [if_pos hdn, ih]
      rcases eq_or_ne d dep with hd | hd
      · subst hd
        rw [Function.update_same]
        constructor
        · rintro (h | ⟨h1, h2, h3⟩)
          · rcases List.mem_append.mp h with h | h
            · exact Or.inl h
            · exact Or.inr ⟨hdn, List.mem_singleton.mp h, List.mem_cons_self _ _⟩
          · exact Or.inr ⟨h1, h2, List.mem_cons_of_mem _ h3⟩
        · rintro (h | ⟨_, h2, _⟩)
          · exact Or.inl (List.mem_append_left _ h)
          · exact Or.inl (List.mem_append_right _ (h2 ▸ List.mem_singleton_self _))
      · rw [Function.update_noteq hd]
        constructor
        · rintro (h | ⟨h1, h2, h3⟩)
          · exact Or.inl h
          · exact Or.inr ⟨h1, h2, List.mem_cons_of_mem _ h3⟩
        · rintro (h | ⟨h1, h2, h3⟩)
          · exact Or.inl h
          · rcases List.mem_cons.mp h3 with h4 | h4
            · exact absurd h4 hd
            · exact Or.inr ⟨h1, h2, h4⟩
    · rw [if_neg hdn, ih]
      constructor
      · rintro (h | ⟨h1, h2, h3⟩)
        · exact Or.inl h
        · exact Or.inr ⟨h1, h2, List.mem_cons_of_mem _ h3⟩
      · rintro (h | ⟨h1, h2, h3⟩)
        · exact Or.inl h
        · rcases List.mem_cons.mp h3 with h4 | h4
          · exact absurd h1 (h4 ▸ hdn)
          · exact Or.inr ⟨h1, h2, h4⟩

theorem addDependents_mem (names : List String) (e : String × ProductConfig)
    (m : String → List String) (d x : String) :
    x ∈ addDependents names e m d ↔
      x ∈ m d ∨ (d ∈ names ∧ x = e.1 ∧ d ∈ e.2.dependencies) :=
  foldl_update_mem names e.1 e.2.dependencies m d x

theorem foldl_addDependents_mem (names : List String) :
    ∀ (ps : List (String × ProductConfig)) (m : String → List String) (d x : String),
      x ∈ (ps.foldl (fun m e => addDependents names e m) m) d ↔
        x ∈ m d ∨ ∃ e ∈ ps, d ∈ names ∧ x = e.1 ∧ d ∈ e.2.dependencies := by
  intro ps
  induction ps with
  | nil =>
    intro m d x
    simp
  | cons e rest ih =>
    intro m d x
    rw [List.foldl_cons, ih, addDependents_mem]
    constructor
    · rintro ((h | h) | ⟨f, hf, h⟩)
      · exact Or.inl h
      · exact Or.inr ⟨e, List.mem_cons_self _ _, h⟩
      · exact Or.inr ⟨f, List.mem_cons_of_mem _ hf, h⟩
    · rintro (h | ⟨f, hf, h⟩)
      · exact Or.inl (Or.inl h)
      · rcases List.mem_cons.mp hf with hfe | hfe
        · exact Or.inl (Or.inr (hfe ▸ h))
        · exact Or.inr ⟨f, hfe, h⟩

theorem find?_eq_of_mem_nodup (ps : List (String × ProductConfig))
    (hnd : (ps.map (fun q => q.1)).Nodup) (e : String × ProductConfig)
    (he : e ∈ ps) : ps.find? (fun q => q.1 == e.1) = some e := by
  induction ps with
  | nil => cases he
  | cons p rest ih =>
    rcases List.mem_cons.mp he with hpe | hpe
    · subst hpe
      rw [List.find?_cons_of_pos _ (by simp)]
    · have hne : p.1 ≠ e.1 := by
        intro hc
        have : p.1 ∈ rest.map (fun q => q.1) := hc ▸ List.mem_map_of_mem _ hpe
        exact (List.nodup_cons.mp hnd).1 this
      rw [List.find?_cons_of_neg _ (by simp [hne])]
      exact ih (List.nodup_cons.mp hnd).2 hpe

theorem deps_eq_of_mem (cat : Catalog) (hwf : cat.Wellformed)
    (e : String × ProductConfig) (he : e ∈ cat.products) :
    cat.deps e.1 = e.2.dependencies := by
  unfold Catalog.deps Catalog.config
  rw [find?_eq_of_mem_nodup cat.products hwf.1 e he]
  rfl

theorem mem_dependentsMap_iff (cat : Catalog) (hwf : cat.Wellformed)
    (d x : String) : x ∈ dependentsMap cat d ↔ revDepEdge cat d x := by
  unfold dependentsMap
  rw [foldl_addDependents_mem]
  simp only [List.not_mem_nil, false_or]
  constructor
  · rintro ⟨e, he, hdn, hx, hd⟩
    refine ⟨hdn, hx ▸ List.mem_map_of_mem _ he, ?_⟩
    rw [hx, deps_eq_of_mem cat hwf e he]
    exact hd
  · rintro ⟨hdn, hx, hd⟩
    obtain ⟨e, he, hex⟩ := List.mem_map.mp hx
    refine ⟨e, he, hdn, hex.symm, ?_⟩
    rw [← deps_eq_of_mem cat hwf e he, hex]
    exact hd

/-- Reachability from some changed product along dependents-map edges. -/
def ReachDm (dm : String → List String) (changed : List String) (x : String) : Prop :=
  ∃ c ∈ changed, Relation.ReflTransGen (fun a b => b ∈ dm a) c x

theorem nodup_subset_length_le {l bound : List String} (hl : l.Nodup)
    (hsub : ∀ x ∈ l, x ∈ bound) : l.length ≤ bound.length := by
  calc l.length = l.toFinset.card := (List.toFinset_card_of_nodup hl).symm
    _ ≤ bound.toFinset.card := by
        apply Finset.card_le_card
        intro x hx
        exact List.mem_toFinset.mpr (hsub x (List.mem_toFinset.mp hx))
    _ ≤ bound.length := List.toFinset_card_le bound

/-- Invariant of the BFS loop of `get_affected_products`. -/
structure BfsInv (dm : String → List String) (changed bound : List String)
    (affected queue : List String) : Prop where
  aff_nodup : affected.Nodup
  aff_bound : ∀ x ∈ affected, x ∈ bound
  changed_sub : ∀ x ∈ changed, x ∈ affected
  queue_sub : ∀ x ∈ queue, x ∈ affected
  sound : ∀ x ∈ affected, ReachDm dm changed x
  frontier : ∀ a ∈ affected, ∀ b ∈ dm a, b ∈ affected ∨ a ∈ queue

theorem bfsInner_spec :
    ∀ (ds a q : List String),
      ∃ ext,
        ds.foldl (fun (st : List String × List String) dependent =>
            if dependent ∈ st.1 then st
            else (st.1 ++ [dependent], st.2 ++ [dependent])) (a, q) =
          (a ++ ext, q ++ ext) ∧
        (∀ x ∈ ext, x ∈ ds ∧ x ∉ a) ∧ (∀ b ∈ ds, b ∈ a ++ ext) ∧
        (a.Nodup → (a ++ ext).Nodup) := by
  intro ds
  induction ds with
  | nil =>
    intro a q
    exact ⟨[], by simp, by simp, by simp, fun h => by simpa using h⟩
  | cons dep rest ih =>
    intro a q
    rw [List.foldl_cons]
    by_cases hda : dep ∈ a
    · rw [if_pos hda]
      obtain ⟨ext, heq, hmem, hcov, hnd⟩ := ih a q
      refine ⟨ext, heq, ?_, ?_, hnd⟩
      · intro x hx
        exact ⟨List.mem_cons_of_mem _ (hmem x hx).1, (hmem x hx).2⟩
      · intro b hb
        rcases List.mem_cons.mp hb with h | h
        · exact List.mem_append_left _ (h ▸ hda)
        · exact hcov b h
    · rw [if_neg hda]
      obtain ⟨ext, heq, hmem, hcov, hnd⟩ := ih (a ++ [dep]) (q ++ [dep])
      refine ⟨dep :: ext, ?_, ?_, ?_, ?_⟩
      · rw [heq]
        simp
      · intro x hx
        rcases List.mem_cons.mp hx with h | h
        · exact ⟨h ▸ List.mem_cons_self _ _, h ▸ hda⟩
        · refine ⟨List.mem_cons_of_mem _ (hmem x h).1, fun hc => (hmem x h).2 ?_⟩
          exact List.mem_append_left _ hc
      · intro b hb
        rcases List.mem_cons.mp hb with h | h
        · exact h ▸ (by simp)
        · have := hcov b h
          simpa [List.append_assoc] using this
      · intro hand
        have h1 : (a ++ [dep]).Nodup := List.Nodup.append hand
          (List.nodup_singleton _)
          (fun y hy hz => hda ((List.mem_singleton.mp hz) ▸ hy))
        have := hnd h1
        simpa [List.append_assoc] using this

theorem bfsLoop_zero (dm : String → List String) (affected queue : List String) :
    bfsLoop dm 0 affected queue = affected := rfl

theorem bfsLoop_succ_nil (dm : String → List String) (fuel : Nat)
    (affected : List String) :
    bfsLoop dm (fuel + 1) affected [] = affected := rfl

theorem bfsLoop_succ_cons (dm : String → List String) (fuel : Nat)
    (affected : List String) (product : String) (rest : List String) :
    bfsLoop dm (fuel + 1) affected (product :: rest) =
      bfsLoop dm fuel
        ((dm product).foldl (fun (st : List String × List String) dependent =>
          if dependent ∈ st.1 then st
          else (st.1 ++ [dependent], st.2 ++ [dependent])) (affected, rest)).1
        ((dm product).foldl (fun (st : List String × List String) dependent =>
          if dependent ∈ st.1 then st
          else (st.1 ++ [dependent], st.2 ++ [dependent])) (affected, rest)).2 := rfl

/-- Postcondition of the BFS loop: membership is sound for reachability,
the changed set is contained, and the result is closed under
dependents-map edges. -/
theorem bfsLoop_post (dm : String → List String) (changed bound : List String)
    (hdm : ∀ a b, b ∈ dm a → b ∈ bound) :
    ∀ (fuel : Nat) (affected queue : List String),
      BfsInv dm changed bound affected queue →
      queue.length + bound.length ≤ fuel + affected.length →
      (∀ x ∈ bfsLoop dm fuel affected queue, ReachDm dm changed x) ∧
      (∀ x ∈ changed, x ∈ bfsLoop dm fuel affected queue) ∧
      (∀ a ∈ bfsLoop dm fuel affected queue, ∀ b ∈ dm a,
        b ∈ bfsLoop dm fuel affected queue) := by
  intro fuel
  induction fuel with
  | zero =>
    intro affected queue hinv hfuel
    rw [bfsLoop_zero]
    have hlen := nodup_subset_length_le hinv.aff_nodup hinv.aff_bound
    have hqnil : queue = [] := by
      apply List.length_eq_zero.mp
      omega
    refine ⟨hinv.sound, hinv.changed_sub, ?_⟩
    intro a ha b hb
    rcases hinv.frontier a ha b hb with h | h
    · exact h
    · rw [hqnil] at h
      exact absurd h (List.not_mem_nil a)
  | succ fuel ih =>
    intro affected queue hinv hfuel
    match queue with
    | [] =>
      rw [bfsLoop_succ_nil]
      refine ⟨hinv.sound, hinv.changed_sub, ?_⟩
      intro a ha b hb
      rcases hinv.frontier a ha b hb with h | h
      · exact h
      · exact absurd h (List.not_mem_nil a)
    | product :: rest =>
      rw [bfsLoop_succ_cons]
      obtain ⟨ext, heq, hmem, hcov, hnd⟩ := bfsInner_spec (dm product) affected rest
      rw [heq]
      have hreach_prod : ReachDm dm changed product :=
        hinv.sound product (hinv.queue_sub product (List.mem_cons_self _ _))
      apply ih
      · refine
          { aff_nodup := hnd hinv.aff_nodup, aff_bound := ?_, changed_sub := ?_,
            queue_sub := ?_, sound := ?_, frontier := ?_ }
        · intro x hx
          rcases List.mem_append.mp hx with h | h
          · exact hinv.aff_bound x h
          · exact hdm product x (hmem x h).1
        · intro x hx
          exact List.mem_append_left _ (hinv.changed_sub x hx)
        · intro x hx
          rcases List.mem_append.mp hx with h | h
          · exact List.mem_append_left _
              (hinv.queue_sub x (List.mem_cons_of_mem _ h))
          · exact List.mem_append_right _ h
        · intro x hx
          rcases List.mem_append.mp hx with h | h
          · exact hinv.sound x h
          · obtain ⟨c, hc, hrt⟩ := hreach_prod
            exact ⟨c, hc, Relation.ReflTransGen.tail hrt (hmem x h).1⟩
        · intro a ha b hb
          rcases List.mem_append.mp ha with h | h
          · rcases hinv.frontier a h b hb with h2 | h2
            · exact Or.inl (List.mem_append_left _ h2)
            · rcases List.mem_cons.mp h2 with h3 | h3
              · exact Or.inl (hcov b (h3 ▸ hb))
              · exact Or.inr (List.mem_append_left _ h3)
          · exact Or.inr (List.mem_append_right _ h)
      · rw [List.length_append, List.length_append]
        have : rest.length + 1 + bound.length ≤ fuel + 1 + affected.length := by
          simpa using hfuel
        omega

/-- C3. `get_affected_products` computes exactly the union of `changed`
with everything reachable from a changed product along
reverse-dependency edges. -/
theorem C3_get_affected_products_cascade (cat : Catalog) (changed : List String)
    (hwf : cat.Wellformed) (hch : changed.Nodup) :
    ∀ x, x ∈ get_affected_products cat changed ↔
      ∃ c ∈ changed, Relation.ReflTransGen (revDepEdge cat) c x := by
  intro x
  have hdm : ∀ a b, b ∈ dependentsMap cat a → b ∈ changed ++ cat.names := by
    intro a b hb
    exact List.mem_append_right _ ((mem_dependentsMap_iff cat hwf a b).mp hb).2.1
  have hinv : BfsInv (dependentsMap cat) changed (changed ++ cat.names)
      changed changed :=
    { aff_nodup := hch
      aff_bound := fun x hx => List.mem_append_left _ hx
      changed_sub := fun x hx => hx
      queue_sub := fun x hx => hx
      sound := fun x hx => ⟨x, hx, Relation.ReflTransGen.refl⟩
      frontier := fun a ha _ _ => Or.inr ha }
  have hfuel : changed.length + (changed ++ cat.names).length ≤
      (changed.length + cat.products.length) + changed.length := by
    rw [List.length_append]
    unfold Catalog.names
    rw [List.length_map]
    omega
  obtain ⟨hsound, hchsub, hclosed⟩ := bfsLoop_post (dependentsMap cat) changed
    (changed ++ cat.names) hdm (changed.length + cat.products.length)
    changed changed hinv hfuel
  unfold get_affected_products
  constructor
  · intro hx
    obtain ⟨c, hc, hrt⟩ := hsound x hx
    refine ⟨c, hc, Relation.ReflTransGen.mono ?_ hrt⟩
    intro a b hb
    exact (mem_dependentsMap_iff cat hwf a b).mp hb
  · rintro ⟨c, hc, hrt⟩
    induction hrt with
    | refl => exact hchsub c hc
    | tail _ hedge ih2 =>
      apply hclosed _ ih2
      rw [mem_dependentsMap_iff cat hwf]
      exact hedge

theorem C3_witness :
    ∃ c ∈ ["networking"],
      Relation.ReflTransGen (revDepEdge exampleCatalog) c "api" :=
  (C3_get_affected_products_cascade exampleCatalog ["networking"]
    ⟨by decide, by decide⟩ (by decide) "api").mp (by decide)

/-! ### Content hashing: `compute_product_hash` -/

/-- Lexicographic code-point comparison of path strings, as Python's
`sorted` uses on the file paths. -/
def charsLe : List Char → List Char → Bool
  | [], _ => true
  | _ :: _, [] => false
  | a :: as, b :: bs =>
    if a < b then true else if b < a then false else charsLe as bs

def strLe (a b : String) : Prop := charsLe a.data b.data = true

/-- Ordering of directory entries by relative path. -/
def fileLe (a b : String × List Nat) : Prop := strLe a.1 b.1

theorem charsLe_total : ∀ x y : List Char, charsLe x y = true ∨ charsLe y x = true := by
  intro x
  induction x with
  | nil =>
    intro y
    exact Or.inl rfl
  | cons a as ih =>
    intro y
    match y with
    | [] => exact Or.inr rfl
    | b :: bs =>
      rcases lt_trichotomy a b with h | h | h
      · exact Or.inl (by simp [charsLe, h])
      · subst h
        rcases ih bs with h2 | h2
        · exact Or.inl (by simp [charsLe, lt_irrefl, h2])
        · exact Or.inr (by simp [charsLe, lt_irrefl, h2])
      · exact Or.inr (by simp [charsLe, h])

theorem charsLe_trans : ∀ x y z : List Char,
    charsLe x y = true → charsLe y z = true → charsLe x z = true := by
  intro x
  induction x with
  | nil =>
    intro y z _ _
    rfl
  | cons a as ih =>
    intro y z hxy hyz
    match y, z with
    | [], _ => exact absurd hxy (by simp [charsLe])
    | _ :: _, [] => exact absurd hyz (by simp [charsLe])
    | b :: bs, c :: cs =>
      rcases lt_trichotomy a b with hab | hab | hab
      · rcases lt_trichotomy b c with hbc | hbc | hbc
        · simp [charsLe, lt_trans hab hbc]
        · subst hbc
          simp [charsLe, hab]
        · rw [charsLe, if_neg (lt_asymm hbc), if_pos hbc] at hyz
          cases hyz
      · subst hab
        rw [charsLe, if_neg (lt_irrefl a), if_neg (lt_irrefl a)] at hxy
        rcases lt_trichotomy a c with hac | hac | hac
        · simp [charsLe, hac]
        · subst hac
          rw [charsLe, if_neg (lt_irrefl a), if_neg (lt_irrefl a)] at hyz ⊢
          exact ih bs cs hxy hyz
        · rw [charsLe, if_neg (lt_asymm hac), if_pos hac] at hyz
          cases hyz
      · rw [charsLe, if_neg (lt_asymm hab), if_pos hab] at hxy
        cases hxy

theorem charsLe_antisymm : ∀ x y : List Char,
    charsLe x y = true → charsLe y x = true → x = y := by
  intro x
  induction x with
  | nil =>
    intro y _ hyx
    match y with
    | [] => rfl
    | _ :: _ => exact absurd hyx (by simp [charsLe])
  | cons a as ih =>
    intro y hxy hyx
    match y with
    | [] => exact absurd hxy (by simp [charsLe])
    | b :: bs =>
      rcases lt_trichotomy a b with hab | hab | hab
      · rw [charsLe, if_neg (lt_asymm hab), if_pos hab] at hyx
        cases hyx
      · subst hab
        rw [charsLe, if_neg (lt_irrefl a), if_neg (lt_irrefl a)] at hxy hyx
        rw [ih bs hxy hyx]
      · rw [charsLe, if_neg (lt_asymm hab), if_pos hab] at hxy
        cases hxy

instance : DecidableRel fileLe :=
  fun a b => inferInstanceAs (Decidable (charsLe a.1.data b.1.data = true))

instance : IsTotal (String × List Nat) fileLe :=
  ⟨fun a b => charsLe_total a.1.data b.1.data⟩

instance : IsTrans (String × List Nat) fileLe :=
  ⟨fun _ _ _ hab hbc => charsLe_trans _ _ _ hab hbc⟩

theorem fileLe_antisymm_keys {a b : String × List Nat}
    (hab : fileLe a b) (hba : fileLe b a) : a.1 = b.1 := by
  have := charsLe_antisymm _ _ hab hba
  cases ha : a.1 with
  | mk da =>
    cases hb : b.1 with
    | mk db =>
      rw [ha, hb] at this
      simp only at this
      rw [this]

/-- UTF-8 bytes of an ASCII relative path: `str(rel_path).encode()`. -/
def strBytes (s : String) : List Nat := s.data.map (fun c => c.toNat)

/-- The exact byte stream `compute_product_hash` feeds to the SHA-256
hasher (`deploy.py` lines 119-135): files sorted by relative path, and
for each file the path bytes immediately followed by the content bytes -
note: with no separator between path and content, and none between
files. -/
def hashInput (files : List (String × List Nat)) : List Nat :=
  (List.insertionSort fileLe files).foldl
    (fun acc f => acc ++ strBytes f.1 ++ f.2) []

/-- Truncate to a 32-bit word. -/
def w32 (x : Nat) : Nat := x % 4294967296

def rotr32 (n x : Nat) : Nat := w32 ((x >>> n) ||| (x <<< (32 - n)))

def sha256_k : List Nat :=
  [1116352408, 1899447441, 3049323471, 3921009573, 961987163,
   1508970993, 2453635748, 2870763221, 3624381080, 310598401,
   607225278, 1426881987, 1925078388, 2162078206, 2614888103,
   3248222580, 3835390401, 4022224774, 264347078, 604807628,
   770255983, 1249150122, 1555081692, 1996064986, 2554220882,
   2821834349, 2952996808, 3210313671, 3336571891, 3584528711,
   113926993, 338241895, 666307205, 773529912, 1294757372,
   1396182291, 1695183700, 1986661051, 2177026350, 2456956037,
   2730485921, 2820302411, 3259730800, 3345764771, 3516065817,
   3600352804, 4094571909, 275423344, 430227734, 506948616,
   659060556, 883997877, 958139571, 1322822218, 1537002063,
   1747873779, 1955562222, 2024104815, 2227730452, 2361852424,
   2428436474, 2756734187, 3204031479, 3329325298]

def sha256_h0 : List Nat :=
  [1779033703, 3144134277, 1013904242, 2773480762,
   1359893119, 2600822924, 528734635, 1541459225]

def bytesBE (k x : Nat) : List Nat :=
  (List.range k).map (fun i => (x >>> (8 * (k - 1 - i))) % 256)

def sha256_pad (msg : List Nat) : List Nat :=
  let L := msg.length
  let z := (120 - ((L + 1) % 64)) % 64
  msg ++ [0x80] ++ List.replicate z 0 ++ bytesBE 8 (8 * L)

def chunks64 : Nat → List Nat → List (List Nat)
  | 0, _ => []
  | fuel + 1, l => if l = [] then [] else l.take 64 :: chunks64 fuel (l.drop 64)

def words16 (block : List Nat) : List Nat :=
  (List.range 16).map (fun i =>
    block.getD (4 * i) 0 * 16777216 + block.getD (4 * i + 1) 0 * 65536 +
    block.getD (4 * i + 2) 0 * 256 + block.getD (4 * i + 3) 0)

def ssig0 (x : Nat) : Nat := rotr32 7 x ^^^ rotr32 18 x ^^^ (x >>> 3)

def ssig1 (x : Nat) : Nat := rotr32 17 x ^^^ rotr32 19 x ^^^ (x >>> 10)

def bsig0 (x : Nat) : Nat := rotr32 2 x ^^^ rotr32 13 x ^^^ rotr32 22 x

def bsig1 (x : Nat) : Nat := rotr32 6 x ^^^ rotr32 11 x ^^^ rotr32 25 x

def extendW : Nat → List Nat → List Nat
  | 0, w => w
  | k + 1, w =>
    let t := w.length
    extendW k (w ++ [w32 (ssig1 (w.getD (t - 2) 0) + w.getD (t - 7) 0 +
      ssig0 (w.getD (t - 15) 0) + w.getD (t - 16) 0)])

def compressRound (state : List Nat) (kt wt : Nat) : List Nat :=
  match state with
  | [a, b, c, d, e, f, g, h] =>
    let ch := (e &&& f) ^^^ ((e ^^^ 4294967295) &&& g)
    let maj := (a &&& b) ^^^ (a &&& c) ^^^ (b &&& c)
    let t1 := w32 (h + bsig1 e + ch + kt + wt)
    let t2 := w32 (bsig0 a + maj)
    [w32 (t1 + t2), a, b, c, w32 (d + t1), e, f, g]
  | other => other

def compressBlock (h : List Nat) (block : List Nat) : List Nat :=
  let w := extendW 48 (words16 block)
  let final := (List.range 64).foldl
    (fun st t => compressRound st (sha256_k.getD t 0) (w.getD t 0)) h
  List.zipWith (fun x y => w32 (x + y)) h final

/-- FIPS 180-4 SHA-256 digest (32 bytes) of a byte string; checked against
the standard test vectors. -/
def sha256 (msg : List Nat) : List Nat :=
  let padded := sha256_pad msg
  let blocks := chunks64 padded.length padded
  let hfin := blocks.foldl compressBlock sha256_h0
  (hfin.map (fun wd => bytesBE 4 wd)).flatten

def hexDigitChars : List Char := "0123456789abcdef".data

def hexdigest (bytes : List Nat) : String :=
  String.mk ((bytes.map (fun b => [hexDigitChars.getD (b / 16) '0',
    hexDigitChars.getD (b % 16) '0'])).flatten)

/-- `compute_product_hash(product_path)` (`deploy.py` lines 114-137) on a
directory given as its set of (relative path, content bytes) files:
`hashlib.sha256` over the sorted path+content stream, hexdigest truncated
to 16 characters. -/
def compute_product_hash (files : List (String × List Nat)) : String :=
  (hexdigest (sha256 (hashInput files))).take 16

/-! ### Determinism and (in)sensitivity of the hash -/

theorem sorted_perm_eq_of_nodup_keys :
    ∀ (l1 l2 : List (String × List Nat)), l1.Perm l2 →
      l1.Pairwise fileLe → l2.Pairwise fileLe →
      (l1.map Prod.fst).Nodup → l1 = l2 := by
  intro l1
  induction l1 with
  | nil =>
    intro l2 hp _ _ _
    exact (List.Perm.nil_eq hp)
  | cons a t1 ih =>
    intro l2 hp hs1 hs2 hnd
    match l2 with
    | [] => exact absurd (List.Perm.nil_eq hp.symm) (by simp)
    | b :: t2 =>
      have hab : a = b := by
        by_contra hne
        have ha2 : a ∈ b :: t2 := hp.mem_iff.mp (List.mem_cons_self _ _)
        have hb1 : b ∈ a :: t1 := hp.mem_iff.mpr (List.mem_cons_self _ _)
        have hat2 : a ∈ t2 := (List.mem_cons.mp ha2).resolve_left hne
        have hbt1 : b ∈ t1 := (List.mem_cons.mp hb1).resolve_left (fun h => hne h.symm)
        have h1 : fileLe a b := (List.pairwise_cons.mp hs1).1 b hbt1
        have h2 : fileLe b a := (List.pairwise_cons.mp hs2).1 a hat2
        have hkey : a.1 = b.1 := fileLe_antisymm_keys h1 h2
        have : a.1 ∈ t1.map Prod.fst := by
          rw [hkey]
          exact List.mem_map_of_mem _ hbt1
        exact (List.nodup_cons.mp hnd).1 this
      subst hab
      have ht : t1.Perm t2 := hp.cons_inv
      rw [ih t2 ht (List.pairwise_cons.mp hs1).2 (List.pairwise_cons.mp hs2).2
        (List.nodup_cons.mp hnd).2]

/-- Concatenated path+content blocks in given order. -/
def blocksOf (l : List (String × List Nat)) : List Nat :=
  (l.map (fun f => strBytes f.1 ++ f.2)).flatten

theorem foldl_append_blocks :
    ∀ (l : List (String × List Nat)) (acc : List Nat),
      l.foldl (fun acc f => acc ++ strBytes f.1 ++ f.2) acc = acc ++ blocksOf l := by
  intro l
  induction l with
  | nil =>
    intro acc
    simp [blocksOf]
  | cons f rest ih =>
    intro acc
    rw [List.foldl_cons, ih]
    simp [blocksOf]

theorem hashInput_perm_eq (fs1 fs2 : List (String × List Nat))
    (hnd : (fs1.map Prod.fst).Nodup) (hp : fs1.Perm fs2) :
    hashInput fs1 = hashInput fs2 := by
  unfold hashInput
  have hkey : List.insertionSort fileLe fs1 = List.insertionSort fileLe fs2 := by
    apply sorted_perm_eq_of_nodup_keys
    · exact ((List.perm_insertionSort fileLe fs1).trans hp).trans
        (List.perm_insertionSort fileLe fs2).symm
    · exact List.sorted_insertionSort fileLe fs1
    · exact List.sorted_insertionSort fileLe fs2
    · exact (List.Perm.nodup_iff
        (List.Perm.map Prod.fst (List.perm_insertionSort fileLe fs1))).mpr hnd
  rw [hkey]

theorem hashInput_of_sorted (l : List (String × List Nat))
    (hs : l.Pairwise fileLe) : hashInput l = blocksOf l := by
  unfold hashInput
  rw [List.Sorted.insertionSort_eq hs, foldl_append_blocks]
  rfl

/-- Sortedness of a file list only depends on its key (path) sequence. -/
theorem pairwise_fileLe_of_map_eq {l1 l2 : List (String × List Nat)}
    (hmap : l1.map Prod.fst = l2.map Prod.fst) (h : l1.Pairwise fileLe) :
    l2.Pairwise fileLe := by
  have h1 : (l1.map Prod.fst).Pairwise strLe := by
    rw [List.pairwise_map]
    exact h
  rw [hmap, List.pairwise_map] at h1
  exact h1

/-- Changing the content of one file while keeping its length (such as a
one-byte change) always changes the byte stream fed to the hasher. -/
theorem hashInput_content_change (pre post : List (String × List Nat))
    (p : String) (c c2 : List Nat)
    (hsorted : (pre ++ (p, c) :: post).Pairwise fileLe)
    (hlen : c.length = c2.length) (hne : c ≠ c2) :
    hashInput (pre ++ (p, c) :: post) ≠ hashInput (pre ++ (p, c2) :: post) := by
  have hsorted2 : (pre ++ (p, c2) :: post).Pairwise fileLe :=
    pairwise_fileLe_of_map_eq (by simp) hsorted
  rw [hashInput_of_sorted _ hsorted, hashInput_of_sorted _ hsorted2]
  unfold blocksOf
  simp only [List.map_append, List.map_cons, List.flatten_append,
    List.flatten_cons, List.append_assoc]
  intro hc
  have h3 := (List.append_inj
    ((List.append_cancel_left hc : strBytes p ++ (c ++ (post.map
      (fun f => strBytes f.1 ++ f.2)).flatten) = strBytes p ++ (c2 ++ (post.map
      (fun f => strBytes f.1 ++ f.2)).flatten))) rfl).2
  have h4 := (List.append_inj h3 hlen).1
  exact hne h4

/-- Directory with files `ab` (content `"b"`) and `abb` (content `"ab"`). -/
def renameDirA : List (String × List Nat) :=
  [("ab", strBytes "b"), ("abb", strBytes "ab")]

/-- The same directory after renaming the file `ab` to `ba` with its
content `"b"` unchanged (file `abb` untouched). -/
def renameDirB : List (String × List Nat) :=
  [("abb", strBytes "ab"), ("ba", strBytes "b")]

/-- C4 counterexample. Renaming a file does not always change the hash:
because `compute_product_hash` concatenates path and content with no
separator, renaming `ab` to `ba` in the directory
`ab maps-to "b", abb maps-to "ab"` produces the identical hasher input
stream `"abbabbab"`, hence the identical hash. -/
theorem C4_counterexample :
    (("ab", strBytes "b") ∈ renameDirA ∧ ("abb", strBytes "ab") ∈ renameDirA ∧
      renameDirA.length = 2) ∧
    (("ba", strBytes "b") ∈ renameDirB ∧ ("abb", strBytes "ab") ∈ renameDirB ∧
      renameDirB.length = 2) ∧
    ("ab" : String) ≠ "ba" ∧
    compute_product_hash renameDirA = compute_product_hash renameDirB := by
  refine ⟨by decide, by decide, by decide, ?_⟩
  show (hexdigest (sha256 (hashInput renameDirA))).take 16 =
    (hexdigest (sha256 (hashInput renameDirB))).take 16
  exact congrArg (fun s => (hexdigest (sha256 s)).take 16)
    (by decide : hashInput renameDirA = hashInput renameDirB)

/-- C4 (amended). `compute_product_hash` is deterministic in the directory
contents: any two enumerations of the same set of files yield the same
hash; changing one byte (any same-length content change) in any file
changes the byte stream fed to the hasher (hence the hash, barring a
SHA-256 collision); but renaming a file (same content, new relative path)
does NOT always change the hash: the path and content are concatenated
without separators, so a rename can reproduce the identical hasher input,
as in `renameDirA`/`renameDirB`. -/
theorem C4_amended_hash_properties :
    (∀ (fs1 fs2 : List (String × List Nat)), (fs1.map Prod.fst).Nodup →
        fs1.Perm fs2 → compute_product_hash fs1 = compute_product_hash fs2) ∧
    (∀ (pre post : List (String × List Nat)) (p : String) (c c2 : List Nat),
        (pre ++ (p, c) :: post).Pairwise fileLe → c.length = c2.length →
        c ≠ c2 →
        hashInput (pre ++ (p, c) :: post) ≠ hashInput (pre ++ (p, c2) :: post)) ∧
    compute_product_hash renameDirA = compute_product_hash renameDirB := by
  refine ⟨?_, hashInput_content_change, ?_⟩
  · intro fs1 fs2 hnd hp
    show (hexdigest (sha256 (hashInput fs1))).take 16 =
      (hexdigest (sha256 (hashInput fs2))).take 16
    exact congrArg (fun s => (hexdigest (sha256 s)).take 16)
      (hashInput_perm_eq fs1 fs2 hnd hp)
  · show (hexdigest (sha256 (hashInput renameDirA))).take 16 =
      (hexdigest (sha256 (hashInput renameDirB))).take 16
    exact congrArg (fun s => (hexdigest (sha256 s)).take 16)
      (by decide : hashInput renameDirA = hashInput renameDirB)

theorem C4_witness :
    compute_product_hash [("b", [49]), ("a", [50])] =
      compute_product_hash [("a", [50]), ("b", [49])] ∧
    hashInput [("a", [7])] ≠ hashInput [("a", [8])] :=
  ⟨C4_amended_hash_properties.1 [("b", [49]), ("a", [50])]
      [("a", [50]), ("b", [49])] (by decide) (List.Perm.swap _ _ _),
   C4_amended_hash_properties.2.1 [] [] "a" [7] [8] (by simp) rfl (by decide)⟩

/-! ### Environment state and parameter resolution -/

/-- Per-product environment state record (`state["environments"][env][name]`),
with every key optional exactly as in the JSON document; `none` models an
absent key. -/
structure ProductState where
  version : Option String := none
  published_commit : Option String := none
  published_hash : Option String := none
  published_at : Option String := none
  deployed_commit : Option String := none
  deployed_at : Option String := none
  provisioned_product_id : Option String := none
  provisioned_product_name : Option String := none
  outputs : Option (List (String × String)) := none
  deriving Repr, DecidableEq

/-- `env_state` of one environment: `env_state.get(name, {})` semantics,
with the default record for unknown products. -/
def EnvState : Type := String → ProductState

/-- Python truthiness of an optional string state value: absent (`None`)
and the empty string are both falsy. -/
def optTruthy (o : Option String) : Bool := decide (o.getD "" ≠ "")

def splitDotChars : List Char → Option (List Char × List Char)
  | [] => none
  | ch :: rest =>
    if ch = '.' then some ([], rest)
    else (splitDotChars rest).map (fun q => (ch :: q.1, q.2))

/-- `source.split(".", 1)` when it yields two parts; `none` when the
source contains no dot (in which case Python's tuple unpacking raises). -/
def splitFirstDot (s : String) : Option (String × String) :=
  (splitDotChars s.data).map (fun q => (String.mk q.1, String.mk q.2))

def lookupStr (l : List (String × String)) (k : String) : Option String :=
  (l.find? (fun e => e.1 == k)).map (fun e => e.2)

/-- A single-quote character, written by code point. -/
def squote : String := String.singleton (Char.ofNat 39)

/-- The exact `ValueError` message of `resolve_parameters`
(`deploy.py` lines 407-410), naming the product, the parameter, the
missing output and the dependency. -/
def resolveErrMsg (product_name param output_name dep_name : String) : String :=
  "Cannot resolve " ++ product_name ++ "." ++ param ++ ": Output " ++ squote ++
    output_name ++ squote ++ " not found in deployed " ++ squote ++ dep_name ++ squote

/-- The `for param, source in mappings.items()` loop of
`resolve_parameters` (`deploy.py` lines 401-412). -/
def resolveLoop (st : EnvState) (product_name : String) :
    List (String × String) → List (String × String) →
      Except String (List (String × String))
  | [], resolved => Except.ok resolved
  | (param, source) :: rest, resolved =>
    match splitFirstDot source with
    | none => Except.error ("not enough values to unpack: " ++ source)
    | some (dep_name, output_name) =>
      match lookupStr ((st dep_name).outputs.getD []) output_name with
      | none =>
        Except.error (resolveErrMsg product_name param output_name dep_name)
      | some v => resolveLoop st product_name rest (resolved ++ [(param, v)])

/-- `resolve_parameters(ctx, product_name)` (`deploy.py` lines 393-414). -/
def resolve_parameters (cat : Catalog) (st : EnvState) (product_name : String) :
    Except String (List (String × String)) :=
  resolveLoop st product_name (cat.config product_name).parameter_mapping []

theorem resolveLoop_missing (st : EnvState) (product_name : String) :
    ∀ (maps resolved : List (String × String)),
      (∀ e ∈ maps, (splitFirstDot e.2).isSome) →
      (∃ e ∈ maps, ∃ dep out, splitFirstDot e.2 = some (dep, out) ∧
        lookupStr ((st dep).outputs.getD []) out = none) →
      ∃ param source dep out,
        (param, source) ∈ maps ∧ splitFirstDot source = some (dep, out) ∧
        lookupStr ((st dep).outputs.getD []) out = none ∧
        resolveLoop st product_name maps resolved =
          Except.error (resolveErrMsg product_name param out dep) := by
  intro maps
  induction maps with
  | nil =>
    intro resolved _ hmiss
    obtain ⟨e, he, _⟩ := hmiss
    exact absurd he (List.not_mem_nil e)
  | cons hd rest ih =>
    intro resolved hdots hmiss
    obtain ⟨param, source⟩ := hd
    obtain ⟨dep, out, hsplit⟩ :
        ∃ dep out, splitFirstDot source = some (dep, out) := by
      have := hdots (param, source) (List.mem_cons_self _ _)
      obtain ⟨q, hq⟩ := Option.isSome_iff_exists.mp this
      exact ⟨q.1, q.2, by rw [hq]⟩
    by_cases hmiss_hd : lookupStr ((st dep).outputs.getD []) out = none
    · refine ⟨param, source, dep, out, List.mem_cons_self _ _, hsplit, hmiss_hd, ?_⟩
      simp only [resolveLoop, hsplit, hmiss_hd]
    · obtain ⟨v, hv⟩ := Option.ne_none_iff_exists'.mp hmiss_hd
      have hrest : ∃ e ∈ rest, ∃ dep out, splitFirstDot e.2 = some (dep, out) ∧
          lookupStr ((st dep).outputs.getD []) out = none := by
        obtain ⟨e, he, dep2, out2, hs2, hl2⟩ := hmiss
        rcases List.mem_cons.mp he with he2 | he2
        · exfalso
          subst he2
          have hs2b : splitFirstDot source = some (dep2, out2) := hs2
          have hpq : (dep, out) = (dep2, out2) :=
            Option.some.inj (hsplit.symm.trans hs2b)
          have hdeq : dep2 = dep := (congrArg Prod.fst hpq).symm
          have houteq : out2 = out := (congrArg Prod.snd hpq).symm
          subst hdeq
          subst houteq
          rw [hl2] at hv
          cases hv
        · exact ⟨e, he2, dep2, out2, hs2, hl2⟩
      obtain ⟨param2, source2, dep2, out2, hmem, hs2, hl2, hres⟩ :=
        ih (resolved ++ [(param, v)]) (fun e he => hdots e (List.mem_cons_of_mem _ he))
          hrest
      refine ⟨param2, source2, dep2, out2, List.mem_cons_of_mem _ hmem, hs2, hl2, ?_⟩
      simp only [resolveLoop, hsplit, hv]
      exact hres

/-- C5. Whenever some parameter mapping of a product references a
dependency output that is absent from the environment state (dependency
never deployed, or deployed without that output), `resolve_parameters`
raises the descriptive `ValueError` naming the product, the parameter,
the missing output and the dependency, and returns no mapping at all (so
no empty or default value is ever substituted). -/
theorem C5_resolve_parameters_missing_output (cat : Catalog) (st : EnvState)
    (product_name : String)
    (hdots : ∀ e ∈ (cat.config product_name).parameter_mapping,
      (splitFirstDot e.2).isSome)
    (hmissing : ∃ e ∈ (cat.config product_name).parameter_mapping,
      ∃ dep out, splitFirstDot e.2 = some (dep, out) ∧
        lookupStr ((st dep).outputs.getD []) out = none) :
    ∃ param source dep out,
      (param, source) ∈ (cat.config product_name).parameter_mapping ∧
      splitFirstDot source = some (dep, out) ∧
      lookupStr ((st dep).outputs.getD []) out = none ∧
      resolve_parameters cat st product_name =
        Except.error (resolveErrMsg product_name param out dep) :=
  resolveLoop_missing st product_name (cat.config product_name).parameter_mapping
    [] hdots hmissing

/-- Environment state with no product deployed at all. -/
def emptyEnvState : EnvState := fun _ => {}

theorem C5_witness :
    ∃ param source dep out,
      (param, source) ∈ (exampleCatalog.config "database").parameter_mapping ∧
      splitFirstDot source = some (dep, out) ∧
      lookupStr ((emptyEnvState dep).outputs.getD []) out = none ∧
      resolve_parameters exampleCatalog emptyEnvState "database" =
        Except.error (resolveErrMsg "database" param out dep) :=
  C5_resolve_parameters_missing_output exampleCatalog emptyEnvState "database"
    (by decide)
    ⟨("VpcId", "networking.VpcId"), by decide, "networking", "VpcId", by decide, rfl⟩

/-! ### The deploy candidate set of `cmd_deploy` -/

/-- The `to_deploy` set computed by `cmd_deploy` (`deploy.py` lines
906-916): iterate over the catalog, skip products excluded by an explicit
(non-empty) product filter, and add a product when its `published_commit`
is truthy and differs from its `deployed_commit`. -/
def deployCandidates (cat : Catalog) (st : EnvState)
    (products : Option (List String)) : List String :=
  cat.names.filter (fun name =>
    (match products with
     | none => true
     | some ps => decide (ps = []) || decide (name ∈ ps)) &&
    optTruthy (st name).published_commit &&
    decide ((st name).published_commit ≠ (st name).deployed_commit))

/-- Environment state after a content-hash-mode publish of `api` (no git
repository): `publish_product` records an empty `published_commit` and
puts the watermark in `published_hash` (`deploy.py` lines 484-497); the
product has never been deployed. -/
def hashModeState : EnvState := fun n =>
  if n = "api" then
    { version := some "2024.01.01.000000"
      published_commit := some ""
      published_hash := some "f00dabcd12345678"
      published_at := some "2024-01-01T00:00:00Z" }
  else {}

/-- C6 counterexample. In content-hash mode a freshly published, never
deployed product (its published watermark `published_hash` present, no
deployed watermark at all) does NOT enter the deploy candidate set,
because `cmd_deploy` only tests `published_commit`, which hash-mode
publishing records as the empty string. -/
theorem C6_counterexample :
    "api" ∈ exampleCatalog.names ∧
    (hashModeState "api").version = some "2024.01.01.000000" ∧
    (hashModeState "api").published_hash = some "f00dabcd12345678" ∧
    (hashModeState "api").deployed_commit = none ∧
    (hashModeState "api").provisioned_product_id = none ∧
    deployCandidates exampleCatalog hashModeState none = [] := by
  decide

/-- C6 (amended). A product enters the deploy candidate set iff it is a
catalog product, passes the explicit product filter (absent or empty
filters pass everything), and its `published_commit` is non-empty and
differs from its `deployed_commit`. The trigger is independent of change
detection, but it operates on the commit watermark only: it works in
source-control mode, while in content-hash mode (where `published_commit`
is recorded empty) a published-but-undeployed product is not added. -/
theorem C6_amended_deploy_candidates (cat : Catalog) (st : EnvState)
    (products : Option (List String)) (name : String) :
    name ∈ deployCandidates cat st products ↔
      name ∈ cat.names ∧
      (products = none ∨ products = some [] ∨
        ∃ ps, products = some ps ∧ name ∈ ps) ∧
      (st name).published_commit.getD "" ≠ "" ∧
      (st name).published_commit ≠ (st name).deployed_commit := by
  unfold deployCandidates optTruthy
  rw [List.mem_filter]
  rcases products with _ | ps
  · simp only [Bool.true_and, Bool.and_eq_true, decide_eq_true_eq]
    constructor
    · rintro ⟨hname, htruthy, hne⟩
      exact ⟨hname, Or.inl (by trivial), htruthy, hne⟩
    · rintro ⟨hname, _, htruthy, hne⟩
      exact ⟨hname, htruthy, hne⟩
  · simp only [Bool.and_eq_true, Bool.or_eq_true, decide_eq_true_eq]
    constructor
    · rintro ⟨hname, ⟨hf, htruthy⟩, hne⟩
      refine ⟨hname, ?_, htruthy, hne⟩
      rcases hf with h | h
      · exact Or.inr (Or.inl (by rw [h]))
      · exact Or.inr (Or.inr ⟨ps, rfl, h⟩)
    · rintro ⟨hname, hf, htruthy, hne⟩
      refine ⟨hname, ⟨?_, htruthy⟩, hne⟩
      rcases hf with h | h | ⟨qs, hq, hmem⟩
      · cases h
      · exact Or.inl (Option.some.inj h)
      · exact Or.inr (by rw [Option.some.inj hq]; exact hmem)

/-! ### Publish / deploy watermarks across repository history -/

/-- Commit watermarks of one product, with commits modelled as positions
in the linear repository history (0, 1, 2, ...). -/
structure TrackState where
  published_commit : Option Nat := none
  deployed_commit : Option Nat := none
  deriving Repr, DecidableEq

/-- World state: the repository `HEAD` plus each product's watermarks. -/
structure RepoWorld where
  head : Nat
  env : String → TrackState

/-- The operations that touch the watermarks: a git commit advancing
`HEAD`; `publish_product`, which records
`published_commit = get_current_commit()` (`deploy.py` lines 484-497);
`deploy_product`, which records `deployed_commit = get_current_commit()`
at deploy time (lines 709-724) and is guarded on the product having been
published (lines 577-579); `terminate_product`, which pops
`deployed_commit` (lines 765-775). -/
inductive RepoOp where
  | gitCommit : RepoOp
  | publish : String → RepoOp
  | deploy : String → RepoOp
  | terminate : String → RepoOp

def applyRepoOp (w : RepoWorld) : RepoOp → RepoWorld
  | RepoOp.gitCommit => { w with head := w.head + 1 }
  | RepoOp.publish p =>
    let ts := { w.env p with published_commit := some w.head }
    { w with env := Function.update w.env p ts }
  | RepoOp.deploy p =>
    if (w.env p).published_commit.isSome then
      let ts := { w.env p with deployed_commit := some w.head }
      { w with env := Function.update w.env p ts }
    else w
  | RepoOp.terminate p =>
    let ts := { w.env p with deployed_commit := none }
    { w with env := Function.update w.env p ts }

def runRepoOps (ops : List RepoOp) : RepoWorld :=
  ops.foldl applyRepoOp ⟨0, fun _ => {}⟩

/-- C7 refutation by evaluation: publish at commit 0, make one more
commit, then deploy. `deploy_product` records the deploy-time `HEAD` as
`deployed_commit`, so the deployed watermark (commit 1) is strictly newer
than the published watermark (commit 0) - the state the invariant
forbids. -/
theorem C7_deployed_commit_newer_than_published :
    ((runRepoOps [RepoOp.publish "api", RepoOp.gitCommit, RepoOp.deploy "api"]).env
        "api").published_commit = some 0 ∧
    ((runRepoOps [RepoOp.publish "api", RepoOp.gitCommit, RepoOp.deploy "api"]).env
        "api").deployed_commit = some 1 ∧ (0 : Nat) < 1 := by
  refine ⟨by decide, by decide, by decide⟩

/-! ### Fail-fast deploy batches -/

/-- Terminal outcome of one provisioning operation as reported by
`wait_for_provisioned_product` (`deploy.py` lines 518-542). -/
inductive ProvisionOutcome where
  | succeeded : List (String × String) → ProvisionOutcome
  | failed : String → ProvisionOutcome
  | timedOut : ProvisionOutcome
  deriving Repr, DecidableEq

/-- The exceptions `deploy_product` can raise. -/
inductive DeployError where
  | notPublished : String → DeployError
  | unresolved : String → DeployError
  | provisionFailed : String → DeployError
  | provisionTimedOut : DeployError
  deriving Repr, DecidableEq

/-- `deploy_product(ctx, product_name)` (`deploy.py` lines 571-729),
abstracted over the provisioning service (`oracle` gives each product's
terminal outcome): raises when the product has no published version
(lines 577-579); resolves parameters (line 591, may raise); on SUCCEEDED
records outputs, the provisioned instance handle and the deploy-time
commit (lines 709-724); on FAILED raises
`RuntimeError("Provisioning failed: ...")` (line 702) and on TIMEOUT
raises `RuntimeError("Provisioning timed out")` (line 705), in both cases
before any state update. -/
def deploy_product (oracle : String → ProvisionOutcome) (cat : Catalog)
    (environment current_commit : String) (st : EnvState) (p : String) :
    Except DeployError EnvState :=
  if optTruthy (st p).version = false then
    Except.error (DeployError.notPublished p)
  else
    match resolve_parameters cat st p with
    | Except.error m => Except.error (DeployError.unresolved m)
    | Except.ok _params =>
      match oracle p with
      | ProvisionOutcome.succeeded outputs =>
        Except.ok (Function.update st p
          { st p with
              deployed_commit := some current_commit
              provisioned_product_id := some ("pp-" ++ environment ++ "-" ++ p)
              provisioned_product_name := some (environment ++ "-" ++ p)
              outputs := some outputs })
      | ProvisionOutcome.failed msg =>
        Except.error (DeployError.provisionFailed ("Provisioning failed: " ++ msg))
      | ProvisionOutcome.timedOut => Except.error DeployError.provisionTimedOut

/-- The `for product in order: deploy_product(...)` loop of `cmd_deploy`
(`deploy.py` lines 927-930): processes products in order, threading
state; an exception stops the loop. Returns the final state, the list of
attempted products, and the error that stopped the batch (if any). -/
def deployBatch (oracle : String → ProvisionOutcome) (cat : Catalog)
    (environment current_commit : String) (st : EnvState) :
    List String → EnvState × List String × Option DeployError
  | [] => (st, [], none)
  | p :: rest =>
    match deploy_product oracle cat environment current_commit st p with
    | Except.error e => (st, [p], some e)
    | Except.ok st2 =>
      let r := deployBatch oracle cat environment current_commit st2 rest
      (r.1, p :: r.2.1, r.2.2)

theorem deployBatch_append_ok (oracle : String → ProvisionOutcome)
    (cat : Catalog) (environment cc : String) :
    ∀ (pre : List String) (st st2 : EnvState) (l2 : List String),
      deployBatch oracle cat environment cc st pre = (st2, pre, none) →
      deployBatch oracle cat environment cc st (pre ++ l2) =
        ((deployBatch oracle cat environment cc st2 l2).1,
         pre ++ (deployBatch oracle cat environment cc st2 l2).2.1,
         (deployBatch oracle cat environment cc st2 l2).2.2) := by
  intro pre
  induction pre with
  | nil =>
    intro st st2 l2 h
    rw [deployBatch] at h
    simp only [Prod.mk.injEq] at h
    rw [List.nil_append, ← h.1]
    simp
  | cons p rest ih =>
    intro st st2 l2 h
    rw [deployBatch] at h
    cases hd : deploy_product oracle cat environment cc st p with
    | error e =>
      rw [hd] at h
      simp only [Prod.mk.injEq] at h
      exact absurd h.2.2 (by simp)
    | ok stx =>
      rw [hd] at h
      simp only [Prod.mk.injEq] at h
      have hrest : deployBatch oracle cat environment cc stx rest =
          (st2, rest, none) := by
        have h21 := h.2.1
        rw [List.cons.injEq] at h21
        exact Prod.ext h.1 (Prod.ext h21.2 h.2.2)
      simp only [List.cons_append, deployBatch, hd]
      simp only [List.append_eq]
      rw [ih stx st2 l2 hrest]

/-- C8. In an ordered deploy batch, a provisioning failure or timeout on
a product makes `deploy_product` raise, so that product is the last one
attempted: the batch result shows exactly `pre ++ [p]` attempted and the
products after `p` untouched, the state is the state before `p`, and
failure and timeout surface as distinct errors. -/
theorem C8_deploy_batch_fail_fast (oracle : String → ProvisionOutcome)
    (cat : Catalog) (environment cc : String) (st st2 : EnvState)
    (pre post : List String) (p : String)
    (hpre : deployBatch oracle cat environment cc st pre = (st2, pre, none))
    (hver : optTruthy (st2 p).version = true)
    (hres : ∃ ps, resolve_parameters cat st2 p = Except.ok ps) :
    (∀ msg, oracle p = ProvisionOutcome.failed msg →
      deployBatch oracle cat environment cc st (pre ++ p :: post) =
        (st2, pre ++ [p],
         some (DeployError.provisionFailed ("Provisioning failed: " ++ msg)))) ∧
    (oracle p = ProvisionOutcome.timedOut →
      deployBatch oracle cat environment cc st (pre ++ p :: post) =
        (st2, pre ++ [p], some DeployError.provisionTimedOut)) ∧
    (∀ m1, DeployError.provisionFailed m1 ≠ DeployError.provisionTimedOut) := by
  obtain ⟨ps, hps⟩ := hres
  have hcomp := deployBatch_append_ok oracle cat environment cc pre st st2
    (p :: post) hpre
  refine ⟨?_, ?_, fun m1 hc => by cases hc⟩
  · intro msg hfail
    have hdp : deploy_product oracle cat environment cc st2 p =
        Except.error (DeployError.provisionFailed
          ("Provisioning failed: " ++ msg)) := by
      unfold deploy_product
      rw [hver, hps, hfail]
      simp
    rw [hcomp]
    simp only [deployBatch, hdp]
  · intro htime
    have hdp : deploy_product oracle cat environment cc st2 p =
        Except.error DeployError.provisionTimedOut := by
      unfold deploy_product
      rw [hver, hps, htime]
      simp
    rw [hcomp]
    simp only [deployBatch, hdp]

/-- Environment state with only `networking` published. -/
def c8State : EnvState := fun n =>
  if n = "networking" then { version := some "2024.01.01.000000" } else {}

theorem C8_witness :
    deployBatch (fun _ => ProvisionOutcome.failed "boom") exampleCatalog "dev"
        "c0" c8State ([] ++ "networking" :: ["database"]) =
      (c8State, [] ++ ["networking"],
       some (DeployError.provisionFailed ("Provisioning failed: " ++ "boom"))) :=
  (C8_deploy_batch_fail_fast (fun _ => ProvisionOutcome.failed "boom")
    exampleCatalog "dev" "c0" c8State c8State [] ["database"] "networking"
    rfl (by decide) ⟨[], rfl⟩).1 "boom" rfl

/-! ### Termination -/

/-- Terminal outcome of one `terminate_provisioned_product` call as seen
by `terminate_product`: the polled record succeeded, failed or timed out,
the instance was already gone (`ResourceNotFoundException`), or another
API error was raised. -/
inductive TerminateOutcome where
  | succeeded : TerminateOutcome
  | failed : String → TerminateOutcome
  | timedOut : TerminateOutcome
  | notFound : TerminateOutcome
  | apiError : String → TerminateOutcome
  deriving Repr, DecidableEq

/-- The state cleanup of a successful termination (`deploy.py` lines
768-774): pop the provisioned-instance fields, the deployed watermark and
the outputs; `version` and the publish watermarks stay. -/
def clearTerminated (ps : ProductState) : ProductState :=
  { ps with
      provisioned_product_id := none
      provisioned_product_name := none
      deployed_commit := none
      deployed_at := none
      outputs := none }

/-- `terminate_product(ctx, product_name)` (`deploy.py` lines 732-784):
returns `True` without touching state when the product has no provisioned
instance id or the instance is already gone; on a successful termination
clears the instance fields and returns `True`; on failure, timeout or any
other API error prints and returns `False` without raising and without
touching state. -/
def terminate_product (oracle : String → TerminateOutcome) (st : EnvState)
    (p : String) : EnvState × Bool :=
  if optTruthy (st p).provisioned_product_id = false then (st, true)
  else
    match oracle p with
    | TerminateOutcome.succeeded =>
      (Function.update st p (clearTerminated (st p)), true)
    | TerminateOutcome.failed _ => (st, false)
    | TerminateOutcome.timedOut => (st, false)
    | TerminateOutcome.notFound => (st, true)
    | TerminateOutcome.apiError _ => (st, false)

/-- The `for product in order: terminate_product(...); save_deploy_state(...)`
loop of `cmd_terminate` (`deploy.py` lines 966-969): every product is
attempted regardless of earlier results; state is saved after each one.
Returns the final state, the per-product results in processing order, and
the list of saved state snapshots. -/
def terminateBatch (oracle : String → TerminateOutcome) (st : EnvState) :
    List String → EnvState × List (String × Bool) × List EnvState
  | [] => (st, [], [])
  | p :: rest =>
    let r := terminate_product oracle st p
    let b := terminateBatch oracle r.1 rest
    (b.1, (p, r.2) :: b.2.1, r.1 :: b.2.2)

/-- `cmd_terminate(ctx, products)` (`deploy.py` lines 935-971): with no
(or an empty) explicit product list, the products with a truthy
`provisioned_product_id`; terminates in reverse topological order; a
cycle `ValueError` from `topological_sort` propagates. The interactive
confirmation and dry-run are outside the model. -/
def cmd_terminate (oracle : String → TerminateOutcome) (cat : Catalog)
    (st : EnvState) (products : Option (List String)) :
    Except String (EnvState × List (String × Bool) × List EnvState) :=
  let to_terminate :=
    match products with
    | some ps =>
      if ps = [] then
        cat.names.filter (fun name => optTruthy (st name).provisioned_product_id)
      else ps
    | none =>
      cat.names.filter (fun name => optTruthy (st name).provisioned_product_id)
  if to_terminate = [] then Except.ok (st, [], [])
  else
    match topological_sort cat to_terminate with
    | Except.error e => Except.error e
    | Except.ok order => Except.ok (terminateBatch oracle st order.reverse)

theorem terminate_product_fst (oracle : String → TerminateOutcome)
    (st : EnvState) (p : String) :
    ∀ q, (terminate_product oracle st p).1 q =
      if q = p ∧ optTruthy (st p).provisioned_product_id = true ∧
          oracle p = TerminateOutcome.succeeded
      then clearTerminated (st p) else st q := by
  intro q
  unfold terminate_product
  by_cases htr : optTruthy (st p).provisioned_product_id = false
  · rw [if_pos htr]
    rw [if_neg]
    rintro ⟨_, h2, _⟩
    rw [htr] at h2
    cases h2
  · rw [if_neg htr]
    have htr2 : optTruthy (st p).provisioned_product_id = true := by
      revert htr
      cases optTruthy (st p).provisioned_product_id <;> simp
    cases ho : oracle p with
    | succeeded =>
      rcases eq_or_ne q p with hq | hq
      · subst hq
        rw [if_pos ⟨rfl, htr2, rfl⟩]
        exact Function.update_same _ _ _
      · rw [if_neg (fun hc => hq hc.1)]
        exact Function.update_noteq hq _ _
    | failed m =>
      rw [if_neg]
      rintro ⟨_, _, h3⟩
      cases h3
    | timedOut =>
      rw [if_neg]
      rintro ⟨_, _, h3⟩
      cases h3
    | notFound =>
      rw [if_neg]
      rintro ⟨_, _, h3⟩
      cases h3
    | apiError m =>
      rw [if_neg]
      rintro ⟨_, _, h3⟩
      cases h3

theorem terminateBatch_state (oracle : String → TerminateOutcome) :
    ∀ (l : List String) (st : EnvState), l.Nodup →
      ∀ q, (terminateBatch oracle st l).1 q =
        if q ∈ l ∧ optTruthy (st q).provisioned_product_id = true ∧
            oracle q = TerminateOutcome.succeeded
        then clearTerminated (st q) else st q := by
  intro l
  induction l with
  | nil =>
    intro st _ q
    rw [if_neg (fun hc => (List.not_mem_nil q) hc.1)]
    rfl
  | cons p rest ih =>
    intro st hnd q
    have hpr : p ∉ rest := (List.nodup_cons.mp hnd).1
    have hrest : rest.Nodup := (List.nodup_cons.mp hnd).2
    have hbatch : (terminateBatch oracle st (p :: rest)).1 =
        (terminateBatch oracle (terminate_product oracle st p).1 rest).1 := rfl
    rw [hbatch, ih _ hrest q]
    have hst1 := terminate_product_fst oracle st p
    rcases eq_or_ne q p with hq | hq
    · subst hq
      rw [if_neg (fun hc => hpr hc.1)]
      rw [hst1 q]
      rcases Classical.em (optTruthy (st q).provisioned_product_id = true ∧
          oracle q = TerminateOutcome.succeeded) with hcond | hcond
      · rw [if_pos ⟨rfl, hcond.1, hcond.2⟩,
          if_pos ⟨List.mem_cons_self _ _, hcond.1, hcond.2⟩]
      · rw [if_neg (fun hc => hcond ⟨hc.2.1, hc.2.2⟩),
          if_neg (fun hc => hcond ⟨hc.2.1, hc.2.2⟩)]
    · have hq1 : (terminate_product oracle st p).1 q = st q := by
        rw [hst1 q, if_neg (fun hc => hq hc.1)]
      rw [hq1]
      by_cases hcond : q ∈ rest ∧ optTruthy (st q).provisioned_product_id = true ∧
          oracle q = TerminateOutcome.succeeded
      · rw [if_pos hcond, if_pos ⟨List.mem_cons_of_mem _ hcond.1, hcond.2⟩]
      · rw [if_neg hcond, if_neg]
        rintro ⟨h1, h2, h3⟩
        rcases List.mem_cons.mp h1 with h4 | h4
        · exact hq h4
        · exact hcond ⟨h4, h2, h3⟩

theorem terminateBatch_results (oracle : String → TerminateOutcome) :
    ∀ (l : List String) (st : EnvState),
      ((terminateBatch oracle st l).2.1).map Prod.fst = l ∧
      ((terminateBatch oracle st l).2.2).length = l.length := by
  intro l
  induction l with
  | nil =>
    intro st
    exact ⟨rfl, rfl⟩
  | cons p rest ih =>
    intro st
    have h := ih (terminate_product oracle st p).1
    exact ⟨by simp [terminateBatch, h.1], by simp [terminateBatch, h.2]⟩

theorem depsRespected_reverse (deps : String → List String)
    (subset order : List String) (h : depsRespected deps subset order) :
    ∀ p1 a p2, order.reverse = p1 ++ a :: p2 →
      ∀ d ∈ deps a, d ∈ subset → d ∈ p2 := by
  intro p1 a p2 heq d hd hds
  have horder : order = p2.reverse ++ a :: p1.reverse := by
    have h2 := congrArg List.reverse heq
    rw [List.reverse_reverse] at h2
    rw [h2]
    simp
  have := h p2.reverse a p1.reverse horder d hd hds
  exact (List.mem_reverse).mp this

/-- C9. `terminate` with no explicit product list terminates exactly the
products carrying a non-empty `provisioned_product_id`, processing them
in the reverse of a topological order (each product is processed before
all of its in-set dependencies); each successfully terminated product's
provisioned-instance fields, deployed watermark and outputs are removed
while its version and publish watermarks are untouched, and products
outside the set (or with unsuccessful terminations) are untouched. -/
theorem C9_cmd_terminate_all_provisioned (oracle : String → TerminateOutcome)
    (cat : Catalog) (st : EnvState) (hwf : cat.Wellformed)
    (hne : cat.names.filter
      (fun name => optTruthy (st name).provisioned_product_id) ≠ [])
    (hacyc : ¬ cyclicIn cat.deps (cat.names.filter
      (fun name => optTruthy (st name).provisioned_product_id))) :
    ∃ order,
      topological_sort cat (cat.names.filter
        (fun name => optTruthy (st name).provisioned_product_id)) =
        Except.ok order ∧
      order.Perm (cat.names.filter
        (fun name => optTruthy (st name).provisioned_product_id)) ∧
      (∀ p1 a p2, order.reverse = p1 ++ a :: p2 →
        ∀ d ∈ cat.deps a, d ∈ cat.names.filter
          (fun name => optTruthy (st name).provisioned_product_id) → d ∈ p2) ∧
      cmd_terminate oracle cat st none =
        Except.ok (terminateBatch oracle st order.reverse) ∧
      (∀ q, (terminateBatch oracle st order.reverse).1 q =
        if q ∈ cat.names.filter
            (fun name => optTruthy (st name).provisioned_product_id) ∧
            oracle q = TerminateOutcome.succeeded
        then clearTerminated (st q) else st q) ∧
      (∀ q, ((terminateBatch oracle st order.reverse).1 q).version =
          (st q).version ∧
        ((terminateBatch oracle st order.reverse).1 q).published_commit =
          (st q).published_commit ∧
        ((terminateBatch oracle st order.reverse).1 q).published_hash =
          (st q).published_hash) ∧
      (∀ q ∈ cat.names.filter
          (fun name => optTruthy (st name).provisioned_product_id),
        oracle q = TerminateOutcome.succeeded →
        ((terminateBatch oracle st order.reverse).1 q).provisioned_product_id =
          none ∧
        ((terminateBatch oracle st order.reverse).1 q).deployed_commit = none ∧
        ((terminateBatch oracle st order.reverse).1 q).outputs = none) := by
  have hnd : (cat.names.filter
      (fun name => optTruthy (st name).provisioned_product_id)).Nodup :=
    List.Nodup.filter _ hwf.1
  obtain ⟨order, htopo, hperm, hresp⟩ :=
    topological_sort_spec_of_acyclic cat _ hwf hnd hacyc
  have hordnodup : order.Nodup := (hperm.nodup_iff).mpr hnd
  have hrevnodup : order.reverse.Nodup := List.nodup_reverse.mpr hordnodup
  have hmem_rev : ∀ q, q ∈ order.reverse ↔ q ∈ cat.names.filter
      (fun name => optTruthy (st name).provisioned_product_id) := by
    intro q
    rw [List.mem_reverse]
    exact hperm.mem_iff
  have htruthy : ∀ q ∈ cat.names.filter
      (fun name => optTruthy (st name).provisioned_product_id),
      optTruthy (st q).provisioned_product_id = true :=
    fun q hq => (List.mem_filter.mp hq).2
  refine ⟨order, htopo, hperm,
    depsRespected_reverse cat.deps _ order hresp, ?_, ?_, ?_, ?_⟩
  · simp only [cmd_terminate]
    rw [if_neg hne, htopo]
  · intro q
    rw [terminateBatch_state oracle order.reverse st hrevnodup q]
    by_cases hc : q ∈ cat.names.filter
        (fun name => optTruthy (st name).provisioned_product_id) ∧
        oracle q = TerminateOutcome.succeeded
    · rw [if_pos ⟨(hmem_rev q).mpr hc.1, htruthy q hc.1, hc.2⟩, if_pos hc]
    · rw [if_neg hc, if_neg]
      rintro ⟨h1, _, h3⟩
      exact hc ⟨(hmem_rev q).mp h1, h3⟩
  · intro q
    rw [terminateBatch_state oracle order.reverse st hrevnodup q]
    by_cases hc : q ∈ order.reverse ∧
        optTruthy (st q).provisioned_product_id = true ∧
        oracle q = TerminateOutcome.succeeded
    · rw [if_pos hc]
      exact ⟨rfl, rfl, rfl⟩
    · rw [if_neg hc]
      exact ⟨rfl, rfl, rfl⟩
  · intro q hq hsucc
    rw [terminateBatch_state oracle order.reverse st hrevnodup q,
      if_pos ⟨(hmem_rev q).mpr hq, htruthy q hq, hsucc⟩]
    exact ⟨rfl, rfl, rfl⟩

/-- Environment state with `networking` and `database` provisioned. -/
def c9State : EnvState := fun n =>
  if n = "networking" then
    { version := some "v1", published_commit := some "c1",
      provisioned_product_id := some "pp-net",
      outputs := some [("VpcId", "vpc-1")] }
  else if n = "database" then
    { version := some "v1", published_commit := some "c1",
      deployed_commit := some "c1",
      provisioned_product_id := some "pp-db" }
  else {}

theorem C9_witness :
    cmd_terminate (fun _ => TerminateOutcome.succeeded) exampleCatalog c9State
        none =
      Except.ok (terminateBatch (fun _ => TerminateOutcome.succeeded) c9State
        (["networking", "database"].reverse)) := by
  obtain ⟨order, htopo, _, _, hcmd, _⟩ :=
    C9_cmd_terminate_all_provisioned (fun _ => TerminateOutcome.succeeded)
      exampleCatalog c9State ⟨by decide, by decide⟩ (by decide)
      (not_cyclicIn_of_rank exampleCatalog.deps _
        (fun n => if n = "networking" then 0 else if n = "database" then 1 else 2)
        (by decide))
  have h2 : topological_sort exampleCatalog (exampleCatalog.names.filter
      (fun name => optTruthy (c9State name).provisioned_product_id)) =
      Except.ok ["networking", "database"] := rfl
  have h3 : (["networking", "database"] : List String) = order :=
    Except.ok.inj (h2.symm.trans htopo)
  rw [← h3] at hcmd
  exact hcmd

/-- C10. A terminate batch does not halt on failure: `terminate_product`
returns `False` without raising when the termination fails or times out
(leaving state untouched), returns `True` when the product was never
provisioned or the instance is already gone, and `cmd_terminate`'s loop
attempts every product of the order, saving state after each one (one
snapshot per product). -/
theorem C10_terminate_no_halt (oracle : String → TerminateOutcome) :
    (∀ (st : EnvState) (p m : String),
      optTruthy (st p).provisioned_product_id = true →
      oracle p = TerminateOutcome.failed m →
      terminate_product oracle st p = (st, false)) ∧
    (∀ (st : EnvState) (p : String),
      optTruthy (st p).provisioned_product_id = true →
      oracle p = TerminateOutcome.timedOut →
      terminate_product oracle st p = (st, false)) ∧
    (∀ (st : EnvState) (p m : String),
      optTruthy (st p).provisioned_product_id = true →
      oracle p = TerminateOutcome.apiError m →
      terminate_product oracle st p = (st, false)) ∧
    (∀ (st : EnvState) (p : String),
      optTruthy (st p).provisioned_product_id = false →
      terminate_product oracle st p = (st, true)) ∧
    (∀ (st : EnvState) (p : String),
      oracle p = TerminateOutcome.notFound →
      terminate_product oracle st p = (st, true)) ∧
    (∀ (l : List String) (st : EnvState),
      ((terminateBatch oracle st l).2.1).map Prod.fst = l ∧
      ((terminateBatch oracle st l).2.2).length = l.length) := by
  refine ⟨?_, ?_, ?_, ?_, ?_, terminateBatch_results oracle⟩
  · intro st p m htr ho
    simp [terminate_product, htr, ho]
  · intro st p htr ho
    simp [terminate_product, htr, ho]
  · intro st p m htr ho
    simp [terminate_product, htr, ho]
  · intro st p htr
    simp [terminate_product, htr]
  · intro st p ho
    by_cases htr : optTruthy (st p).provisioned_product_id = false
    · simp [terminate_product, htr]
    · simp [terminate_product, htr, ho]

/-- Environment state with only `api` provisioned. -/
def c10State : EnvState := fun n =>
  if n = "api" then { provisioned_product_id := some "pp-api" } else {}

theorem C10_witness :
    terminate_product (fun _ => TerminateOutcome.failed "boom") c10State "api" =
      (c10State, false) ∧
    ((terminateBatch (fun _ => TerminateOutcome.failed "boom") c10State
        ["api", "other"]).2.1).map Prod.fst = ["api", "other"] :=
  ⟨(C10_terminate_no_halt (fun _ => TerminateOutcome.failed "boom")).1 c10State
      "api" "boom" (by decide) rfl,
   ((C10_terminate_no_halt (fun _ => TerminateOutcome.failed "boom")).2.2.2.2.2
      ["api", "other"] c10State).1⟩
